import Mathlib

/-!
Verification of the ScholarGraph content pipeline: text chunking
(`ScholarGraph/ingestion/chunker.py`), embedding generation and caching
(`ScholarGraph/embeddings/generator.py`, `cache.py`), supersession detection
(`ScholarGraph/ingestion/supersession_detector.py`) and hybrid search result
fusion (`ScholarGraph/search/hybrid_search.py`).

The Python code is shallowly embedded: strings are Lean `String`s manipulated
through their character lists, Python `float` scores are modelled as `ℚ`,
ISO-8601 timestamps are modelled by their position on the timeline (`Int`),
and stateful methods are modelled as explicit state-passing functions.
-/

/-! ## Python string primitives

`str.split()` (no separator) splits on runs of whitespace and never returns
empty words; `str.strip()` removes leading and trailing whitespace;
`" ".join` interleaves single spaces.  Whitespace is modelled as the six
ASCII whitespace characters recognised by Python. -/

def isPySpace (c : Char) : Bool :=
  c = ' ' ∨ c = '\t' ∨ c = '\n' ∨ c = '\x0d' ∨ c = '\x0b' ∨ c = '\x0c'

/-- Accumulator loop for `str.split()` on a character list. -/
def pysplitGo : List Char → List Char → List (List Char)
  | [], acc =>
    match acc with
    | [] => []
    | _ :: _ => [acc.reverse]
  | c :: cs, acc =>
    if isPySpace c then
      match acc with
      | [] => pysplitGo cs []
      | _ :: _ => acc.reverse :: pysplitGo cs []
    else pysplitGo cs (c :: acc)

/-- Python `str.split()` (whitespace tokenisation) on a character list. -/
def pysplitChars (l : List Char) : List (List Char) := pysplitGo l []

/-- Strip characters satisfying `p` from both ends of a character list. -/
def stripBoth (p : Char → Bool) (l : List Char) : List Char :=
  ((l.dropWhile p).reverse.dropWhile p).reverse

/-- Python `str.strip()` on a character list. -/
def pystrip (l : List Char) : List Char := stripBoth isPySpace l

/-- Python `" ".join` on word character lists. -/
def joinSpace : List (List Char) → List Char
  | [] => []
  | w :: ws =>
    match ws with
    | [] => w
    | _ :: _ => w ++ ' ' :: joinSpace ws

/-- Python `str.lower()` (ASCII model) on a `String`. -/
def pyLower (s : String) : String := String.mk (s.data.map Char.toLower)

/-- Python `str.strip()` on a `String`. -/
def pyStripStr (s : String) : String := String.mk (pystrip s.data)

/-- Lexicographic (code-point) order on character lists, as Python compares
strings. -/
def strLtB : List Char → List Char → Bool
  | [], [] => false
  | [], _ :: _ => true
  | _ :: _, [] => false
  | a :: as, b :: bs => if a < b then true else if b < a then false else strLtB as bs

/-! ### Unfolding equations and basic lemmas for the string primitives -/

theorem pysplitGo_nil_nil : pysplitGo [] [] = [] := rfl

theorem pysplitGo_nil_cons (a : Char) (acc : List Char) :
    pysplitGo [] (a :: acc) = [(a :: acc).reverse] := rfl

theorem pysplitGo_cons (c : Char) (cs acc : List Char) :
    pysplitGo (c :: cs) acc =
      if isPySpace c then
        (match acc with
         | [] => pysplitGo cs []
         | _ :: _ => acc.reverse :: pysplitGo cs [])
      else pysplitGo cs (c :: acc) := rfl

theorem pysplitGo_cons_sp_nil (c : Char) (cs : List Char) (h : isPySpace c = true) :
    pysplitGo (c :: cs) [] = pysplitGo cs [] := by
  rw [pysplitGo_cons, if_pos h]

theorem pysplitGo_cons_sp_cons (c : Char) (cs : List Char) (a : Char) (acc : List Char)
    (h : isPySpace c = true) :
    pysplitGo (c :: cs) (a :: acc) = (a :: acc).reverse :: pysplitGo cs [] := by
  rw [pysplitGo_cons, if_pos h]

theorem pysplitGo_cons_nsp (c : Char) (cs acc : List Char) (h : ¬ isPySpace c) :
    pysplitGo (c :: cs) acc = pysplitGo cs (c :: acc) := by
  rw [pysplitGo_cons, if_neg h]

theorem joinSpace_cons_cons (w u : List Char) (us : List (List Char)) :
    joinSpace (w :: u :: us) = w ++ ' ' :: joinSpace (u :: us) := rfl

theorem joinSpace_single (w : List Char) : joinSpace [w] = w := rfl

theorem pysplitGo_words_valid (l : List Char) :
    ∀ acc, (∀ c ∈ acc, ¬ isPySpace c) →
      ∀ w ∈ pysplitGo l acc, w ≠ [] ∧ ∀ c ∈ w, ¬ isPySpace c := by
  induction l with
  | nil =>
    intro acc hacc w hw
    cases acc with
    | nil => simp [pysplitGo_nil_nil] at hw
    | cons a as =>
      rw [pysplitGo_nil_cons] at hw
      simp only [List.mem_singleton] at hw
      subst hw
      refine ⟨by simp, ?_⟩
      intro c hc
      exact hacc c (List.mem_reverse.mp hc)
  | cons c cs ih =>
    intro acc hacc w hw
    by_cases hsp : isPySpace c
    · cases acc with
      | nil =>
        rw [pysplitGo_cons_sp_nil c cs hsp] at hw
        exact ih [] (by simp) w hw
      | cons a as =>
        rw [pysplitGo_cons_sp_cons c cs a as hsp] at hw
        rcases List.mem_cons.mp hw with h | h
        · subst h
          refine ⟨by simp, ?_⟩
          intro x hx
          exact hacc x (List.mem_reverse.mp hx)
        · exact ih [] (by simp) w h
    · rw [pysplitGo_cons_nsp c cs acc hsp] at hw
      refine ih (c :: acc) ?_ w hw
      intro x hx
      rcases List.mem_cons.mp hx with h | h
      · subst h; exact hsp
      · exact hacc x h

/-- Every word produced by `str.split()` is non-empty and whitespace-free. -/
theorem pysplitChars_valid (l : List Char) :
    ∀ w ∈ pysplitChars l, w ≠ [] ∧ ∀ c ∈ w, ¬ isPySpace c :=
  pysplitGo_words_valid l [] (by simp)

theorem pysplitGo_append_word (w : List Char) (hw : ∀ c ∈ w, ¬ isPySpace c) :
    ∀ rest acc, pysplitGo (w ++ rest) acc = pysplitGo rest (w.reverse ++ acc) := by
  induction w with
  | nil => intro rest acc; simp
  | cons c cs ih =>
    intro rest acc
    have hc : ¬ isPySpace c := hw c (by simp)
    have hcs : ∀ x ∈ cs, ¬ isPySpace x := fun x hx => hw x (by simp [hx])
    have h1 : (c :: cs) ++ rest = c :: (cs ++ rest) := rfl
    rw [h1, pysplitGo_cons_nsp c (cs ++ rest) acc hc, ih hcs rest (c :: acc)]
    simp

theorem pysplitGo_ne_nil (l : List Char) :
    ∀ a acc, pysplitGo l (a :: acc) ≠ [] := by
  induction l with
  | nil => intro a acc; rw [pysplitGo_nil_cons]; simp
  | cons c cs ih =>
    intro a acc
    by_cases hsp : isPySpace c
    · rw [pysplitGo_cons_sp_cons c cs a acc hsp]
      simp
    · rw [pysplitGo_cons_nsp c cs (a :: acc) hsp]
      exact ih c (a :: acc)

/-- Re-splitting the single-space join of valid words gives back the words. -/
theorem pysplit_joinSpace (ws : List (List Char))
    (hws : ∀ w ∈ ws, w ≠ [] ∧ ∀ c ∈ w, ¬ isPySpace c) :
    pysplitChars (joinSpace ws) = ws := by
  induction ws with
  | nil => simp [joinSpace, pysplitChars, pysplitGo_nil_nil]
  | cons w ws ih =>
    have hw := hws w (by simp)
    have hws' : ∀ u ∈ ws, u ≠ [] ∧ ∀ c ∈ u, ¬ isPySpace c :=
      fun u hu => hws u (by simp [hu])
    cases ws with
    | nil =>
      rw [joinSpace_single]
      unfold pysplitChars
      rw [show w = w ++ [] by simp, pysplitGo_append_word w hw.2 [] []]
      cases hwne : w with
      | nil => exact absurd hwne hw.1
      | cons a as =>
        cases hrw : (a :: as).reverse with
        | nil => simp at hrw
        | cons b bs =>
          simp only [List.append_nil]
          rw [pysplitGo_nil_cons]
          have h1 : (b :: bs).reverse = a :: as := by rw [← hrw]; simp
          rw [h1]
    | cons u us =>
      rw [joinSpace_cons_cons]
      unfold pysplitChars
      rw [pysplitGo_append_word w hw.2 (' ' :: joinSpace (u :: us)) []]
      have hsp : isPySpace ' ' = true := by decide
      cases hwne : w with
      | nil => exact absurd hwne hw.1
      | cons a as =>
        have h2 : (a :: as).reverse ++ ([] : List Char) = (a :: as).reverse := by simp
        rw [h2]
        cases hrw : (a :: as).reverse with
        | nil => simp at hrw
        | cons b bs =>
          rw [pysplitGo_cons_sp_cons ' ' (joinSpace (u :: us)) b bs hsp]
          have h1 : (b :: bs).reverse = a :: as := by rw [← hrw]; simp
          rw [h1]
          have h3 := ih hws'
          unfold pysplitChars at h3
          rw [h3]

/-- All-whitespace characterisation: `split()` is empty iff every character is
whitespace. -/
theorem pysplitChars_eq_nil_iff (l : List Char) :
    pysplitChars l = [] ↔ ∀ c ∈ l, isPySpace c := by
  induction l with
  | nil => simp [pysplitChars, pysplitGo_nil_nil]
  | cons c cs ih =>
    by_cases hsp : isPySpace c
    · unfold pysplitChars
      rw [pysplitGo_cons_sp_nil c cs hsp]
      unfold pysplitChars at ih
      simp [ih, hsp]
    · constructor
      · intro h
        unfold pysplitChars at h
        rw [pysplitGo_cons_nsp c cs [] hsp] at h
        exact absurd h (pysplitGo_ne_nil cs c [])
      · intro h
        exact absurd (h c (by simp)) hsp

/-- Emptiness of `strip()`: empty iff every character is whitespace. -/
theorem pystrip_eq_nil_iff (l : List Char) :
    pystrip l = [] ↔ ∀ c ∈ l, isPySpace c := by
  unfold pystrip stripBoth
  constructor
  · intro h c hc
    have h3 : (l.dropWhile isPySpace).reverse.dropWhile isPySpace = [] := by
      have := congrArg List.reverse h
      simpa using this
    have h4 : ∀ x ∈ (l.dropWhile isPySpace).reverse, isPySpace x :=
      List.dropWhile_eq_nil_iff.mp h3
    have h5 : ∀ x ∈ l.dropWhile isPySpace, isPySpace x :=
      fun x hx => h4 x (List.mem_reverse.mpr hx)
    have h6 : l = l.takeWhile isPySpace ++ l.dropWhile isPySpace :=
      (List.takeWhile_append_dropWhile isPySpace l).symm
    rw [h6] at hc
    rcases List.mem_append.mp hc with h7 | h7
    · exact List.mem_takeWhile_imp h7
    · exact h5 c h7
  · intro h
    have : l.dropWhile isPySpace = [] :=
      List.dropWhile_eq_nil_iff.mpr (fun c hc => h c hc)
    simp [this]

/-- Equivalence of `strip()` empty and `split()` empty (both mean all-whitespace text). -/
theorem pystrip_nil_iff_pysplit_nil (l : List Char) :
    pystrip l = [] ↔ pysplitChars l = [] := by
  rw [pystrip_eq_nil_iff, pysplitChars_eq_nil_iff]

/-! ## Chunker (`ScholarGraph/ingestion/chunker.py`)

`Chunk` mirrors the `Chunk` dataclass.  `chunk_text` embeds
`TextChunker.chunk_text` for given `chunk_size`/`chunk_overlap` values; the
`while` loop is realised with a fuel counter (`words.length` iterations
always suffice because the loop advances the word index by
`chunk_size - chunk_overlap ≥ 1` for every configuration the constructor
accepts). -/

structure Chunk where
  content : String
  position : Nat
  start_char : Nat
  end_char : Nat
  word_count : Nat
  char_count : Nat
deriving DecidableEq

/-- Embedding of `TextChunker._find_char_position`: the word-index based estimate
`sum(len(w) + 1 for w in text.split()[:word_index])`.  The `target_word`
argument is ignored, exactly as in the source. -/
def find_char_position (text : String) (targetWord : String) (wordIndex : Nat) : Nat :=
  (((pysplitChars text.data).take wordIndex).map (fun w => w.length + 1)).sum

/-- The chunk built for the window of `size` words starting at word index
`idx` (loop body of `TextChunker.chunk_text`). -/
def windowChunk (size : Nat) (text : String) (words : List (List Char))
    (idx pos : Nat) : Chunk :=
  let chunkWords := (words.drop idx).take size
  let ct := joinSpace chunkWords
  let startChar := find_char_position text (String.mk (chunkWords.headD [])) idx
  { content := String.mk ct
    position := pos
    start_char := startChar
    end_char := startChar + ct.length
    word_count := chunkWords.length
    char_count := ct.length }

/-- The `while current_word_index < len(words)` loop of
`TextChunker.chunk_text`, with explicit fuel. -/
def chunkLoop (size step : Nat) (text : String) (words : List (List Char)) :
    Nat → Nat → Nat → List Chunk
  | 0, _, _ => []
  | fuel + 1, idx, pos =>
    if idx < words.length then
      windowChunk size text words idx pos ::
        chunkLoop size step text words fuel (idx + step) (pos + 1)
    else []

/-- Embedding of `TextChunker.chunk_text` for a chunker configured with
`chunk_size = size` and `chunk_overlap = overlap`. -/
def chunk_text (size overlap : Nat) (text : String) : List Chunk :=
  if pystrip text.data = [] then []
  else if (pysplitChars text.data).length ≤ size then
    [{ content := text
       position := 0
       start_char := 0
       end_char := text.length
       word_count := (pysplitChars text.data).length
       char_count := text.length }]
  else
    chunkLoop size (size - overlap) text (pysplitChars text.data)
      (pysplitChars text.data).length 0 0

example : (chunk_text 3 2 "a b c d").map (fun c => c.word_count) = [3, 3, 2, 1] := by decide
example : (chunk_text 3 2 "a b c d").map (fun c => c.content) = ["a b c", "b c d", "c d", "d"] := by decide
example : chunk_text 3 1 "ab cd" = [⟨"ab cd", 0, 0, 5, 2, 5⟩] := by decide
example : (chunk_text 2 1 " a b c").map (fun c => (c.content, c.start_char, c.end_char)) =
    [("a b", 0, 3), ("b c", 2, 5), ("c", 4, 5)] := by decide

/-! ### Paragraph-aware chunking (`TextChunker.chunk_text_smart`)

`text.split('\n\n')` is modelled by `splitSeq`; the paragraph loop is a left
fold over the paragraph list carrying `(chunks, current_chunk_words,
position)`. -/

/-- Does `sep` occur at the head of `l`? -/
def leadsWith (sep l : List Char) : Bool := l.take sep.length = sep

/-- Python `str.split(sep)` (separator form) on character lists, with fuel. -/
def splitSeqGo (sep : List Char) : Nat → List Char → List Char → List (List Char)
  | _, [], acc => [acc.reverse]
  | 0, rest, acc => [acc.reverse ++ rest]
  | fuel + 1, c :: cs, acc =>
    if leadsWith sep (c :: cs) then
      acc.reverse :: splitSeqGo sep fuel ((c :: cs).drop sep.length) []
    else splitSeqGo sep fuel cs (c :: acc)

/-- Python `str.split(sep)` for a non-empty separator. -/
def splitSeq (sep l : List Char) : List (List Char) := splitSeqGo sep l.length l []

example : splitSeq ['\n', '\n'] "a b\n\nc\n\n\nd".data =
    ["a b".data, "c".data, "\nd".data] := by decide
example : splitSeq ['\n', '\n'] "abc".data = ["abc".data] := by decide
example : splitSeq ['\n', '\n'] "a\n\n\n\nb".data = ["a".data, [], "b".data] := by decide

/-- State of the paragraph loop in `TextChunker.chunk_text_smart`:
accumulated chunks, `current_chunk_words` and the position counter. -/
structure SmartSt where
  chunks : List Chunk
  cur : List (List Char)
  pos : Nat

/-- Chunk emitted from accumulated words in `chunk_text_smart` (both the
mid-loop emission and the final flush): note the source passes word index 0
to `_find_char_position`, so `start_char` is always 0 here. -/
def smartChunk (text : String) (pos : Nat) (cur : List (List Char)) : Chunk :=
  let ct := joinSpace cur
  let startChar := find_char_position text (String.mk (cur.headD [])) 0
  { content := String.mk ct
    position := pos
    start_char := startChar
    end_char := startChar + ct.length
    word_count := cur.length
    char_count := ct.length }

/-- Chunk emission inside the paragraph loop: append the accumulated chunk
and keep the last `overlap` words (`overlap_start = max(0, len - overlap)`
is Nat subtraction here). -/
def smartEmitSt (overlap : Nat) (text : String) (st : SmartSt) : SmartSt :=
  { chunks := st.chunks ++ [smartChunk text st.pos st.cur]
    cur := st.cur.drop (st.cur.length - overlap)
    pos := st.pos + 1 }

/-- Body of the `for paragraph in paragraphs` loop in `chunk_text_smart`:
emit a chunk if adding this paragraph would exceed the chunk size (and
words are accumulated), then append the paragraph's words. -/
def smartStep (size overlap : Nat) (text : String) (st : SmartSt)
    (para : List Char) : SmartSt :=
  if st.cur.length + (pysplitChars para).length > size ∧ st.cur ≠ [] then
    { smartEmitSt overlap text st with
        cur := (smartEmitSt overlap text st).cur ++ pysplitChars para }
  else { st with cur := st.cur ++ pysplitChars para }

/-- State after the paragraph loop of `chunk_text_smart`. -/
def chunkSmartFinal (size overlap : Nat) (text : String) : SmartSt :=
  (splitSeq ['\n', '\n'] text.data).foldl (smartStep size overlap text) ⟨[], [], 0⟩

/-- Paragraph loop plus final flush of `chunk_text_smart`. -/
def chunkSmartCore (size overlap : Nat) (text : String) : List Chunk :=
  if (chunkSmartFinal size overlap text).cur ≠ [] then
    (chunkSmartFinal size overlap text).chunks ++
      [smartChunk text (chunkSmartFinal size overlap text).pos
        (chunkSmartFinal size overlap text).cur]
  else (chunkSmartFinal size overlap text).chunks

/-- Embedding of `TextChunker.chunk_text_smart` (the `prefer_paragraph_breaks` argument
defaults to `True` in the source); falls back to `chunk_text` when the
paragraph-aware pass yields no chunks. -/
def chunk_text_smart (size overlap : Nat) (text : String)
    (preferParagraphBreaks : Bool) : List Chunk :=
  if preferParagraphBreaks = false then chunk_text size overlap text
  else if chunkSmartCore size overlap text = [] then chunk_text size overlap text
  else chunkSmartCore size overlap text

example : (chunk_text_smart 2 1 "a b\n\nc" true).map (fun c => c.content) =
    ["a b", "b c"] := by decide
example : (chunk_text_smart 2 1 "a b c d e\n\nf" true).map (fun c => c.content) =
    ["a b c d e", "e f"] := by decide
example : (chunk_text_smart 2 1 "x" true).map (fun c => (c.content, c.position)) =
    [("x", 0)] := by decide

/-! ### Characterisation of the `chunk_text` loop -/

theorem strLen_mk (l : List Char) : (String.mk l).length = l.length := rfl

/-- Estimated character offset of word `m`: the sum the source computes in
`_find_char_position`. -/
def wordOffset (ws : List (List Char)) (m : Nat) : Nat :=
  ((ws.take m).map (fun w => w.length + 1)).sum

theorem find_char_position_eq (text : String) (t : String) (m : Nat) :
    find_char_position text t m = wordOffset (pysplitChars text.data) m := rfl

theorem chunkLoop_zero (size step : Nat) (text : String) (words : List (List Char))
    (idx pos : Nat) : chunkLoop size step text words 0 idx pos = [] := rfl

theorem chunkLoop_succ (size step : Nat) (text : String) (words : List (List Char))
    (fuel idx pos : Nat) :
    chunkLoop size step text words (fuel + 1) idx pos =
      if idx < words.length then
        windowChunk size text words idx pos ::
          chunkLoop size step text words fuel (idx + step) (pos + 1)
      else [] := rfl

theorem chunkLoop_get? (size step : Nat) (text : String)
    (words : List (List Char)) (hstep : 0 < step) :
    ∀ fuel idx pos, words.length ≤ idx + fuel → ∀ i,
      (chunkLoop size step text words fuel idx pos).get? i =
        if idx + i * step < words.length then
          some (windowChunk size text words (idx + i * step) (pos + i))
        else none := by
  intro fuel
  induction fuel with
  | zero =>
    intro idx pos hfe i
    rw [chunkLoop_zero]
    have : ¬ idx + i * step < words.length := by omega
    simp [this]
  | succ fuel ih =>
    intro idx pos hfe i
    by_cases hidx : idx < words.length
    · rw [chunkLoop_succ, if_pos hidx]
      cases i with
      | zero => simp [hidx]
      | succ j =>
        have hfe' : words.length ≤ (idx + step) + fuel := by omega
        have h1 := ih (idx + step) (pos + 1) hfe' j
        have h2 : (windowChunk size text words idx pos ::
            chunkLoop size step text words fuel (idx + step) (pos + 1)).get? (j + 1) =
            (chunkLoop size step text words fuel (idx + step) (pos + 1)).get? j := rfl
        rw [h2, h1]
        have harith : idx + step + j * step = idx + (j + 1) * step := by ring
        have harith2 : pos + 1 + j = pos + (j + 1) := by ring
        rw [harith, harith2]
    · rw [chunkLoop_succ, if_neg hidx]
      have : ¬ idx + i * step < words.length := by omega
      simp [this]

theorem chunkLoop_length_iff (size step : Nat) (text : String)
    (words : List (List Char)) (hstep : 0 < step)
    (fuel idx pos : Nat) (hfe : words.length ≤ idx + fuel) (i : Nat) :
    i < (chunkLoop size step text words fuel idx pos).length ↔
      idx + i * step < words.length := by
  have h0 := chunkLoop_get? size step text words hstep fuel idx pos hfe i
  by_cases h : idx + i * step < words.length
  · rw [if_pos h] at h0
    refine ⟨fun _ => h, fun _ => ?_⟩
    by_contra hge
    rw [List.get?_eq_none.mpr (by omega)] at h0
    simp at h0
  · rw [if_neg h] at h0
    have := List.get?_eq_none.mp h0
    constructor
    · intro hlt; omega
    · intro hc; exact absurd hc h

theorem windowChunk_fields (size : Nat) (text : String) (words : List (List Char))
    (idx pos : Nat) :
    (windowChunk size text words idx pos).content =
        String.mk (joinSpace ((words.drop idx).take size)) ∧
      (windowChunk size text words idx pos).position = pos ∧
      (windowChunk size text words idx pos).start_char =
        wordOffset (pysplitChars text.data) idx ∧
      (windowChunk size text words idx pos).end_char =
        wordOffset (pysplitChars text.data) idx +
          (joinSpace ((words.drop idx).take size)).length ∧
      (windowChunk size text words idx pos).word_count =
        ((words.drop idx).take size).length ∧
      (windowChunk size text words idx pos).char_count =
        (joinSpace ((words.drop idx).take size)).length := by
  refine ⟨rfl, rfl, rfl, rfl, rfl, rfl⟩

theorem joinSpace_length_pos (ws : List (List Char)) (hne : ws ≠ [])
    (hval : ∀ w ∈ ws, w ≠ []) : 0 < (joinSpace ws).length := by
  cases ws with
  | nil => exact absurd rfl hne
  | cons w rest =>
    cases rest with
    | nil =>
      rw [joinSpace_single]
      have := hval w (by simp)
      cases w with
      | nil => exact absurd rfl this
      | cons a as => simp
    | cons u us =>
      rw [joinSpace_cons_cons]
      simp

/-- Dropping the estimated offset of word `m` from the canonical join leaves
the join of the remaining words. -/
theorem joinSpace_drop_offset (ws : List (List Char)) :
    ∀ m, m < ws.length →
      (joinSpace ws).drop (wordOffset ws m) = joinSpace (ws.drop m) := by
  induction ws with
  | nil => intro m hm; simp at hm
  | cons w rest ih =>
    intro m hm
    cases m with
    | zero => simp [wordOffset]
    | succ j =>
      have hrest : rest ≠ [] := by
        intro he
        rw [he] at hm
        simp at hm
      cases hre : rest with
      | nil => exact absurd hre hrest
      | cons u us =>
        rw [← hre]
        have hj : j < rest.length := by
          rw [hre]
          rw [hre] at hm
          simpa using hm
        have hjoin : joinSpace (w :: rest) = w ++ ' ' :: joinSpace rest := by
          rw [hre, joinSpace_cons_cons]
        have hoff : wordOffset (w :: rest) (j + 1) = (w.length + 1) + wordOffset rest j := by
          simp [wordOffset]
        rw [hjoin, hoff]
        have hsplit : w ++ ' ' :: joinSpace rest = (w ++ [' ']) ++ joinSpace rest := by simp
        rw [hsplit]
        have hlen : (w ++ [' ']).length = w.length + 1 := by simp
        have hdrop : ((w ++ [' ']) ++ joinSpace rest).drop (w.length + 1 + wordOffset rest j) =
            (joinSpace rest).drop (wordOffset rest j) := by
          have h1 : w.length + 1 + wordOffset rest j = (w ++ [' ']).length + wordOffset rest j := by
            rw [hlen]
          rw [h1, List.drop_append]
        rw [hdrop, ih j hj]
        simp

/-- Splitting the canonical join at a word boundary `k` strictly inside the
list. -/
theorem joinSpace_take_split (ws : List (List Char)) :
    ∀ k, 0 < k → k < ws.length →
      joinSpace ws = joinSpace (ws.take k) ++ ' ' :: joinSpace (ws.drop k) := by
  induction ws with
  | nil => intro k _ hk; simp at hk
  | cons w rest ih =>
    intro k hk0 hk
    cases k with
    | zero => omega
    | succ j =>
      have hrest : rest ≠ [] := by
        intro he
        rw [he] at hk
        simp at hk
      cases hre : rest with
      | nil => exact absurd hre hrest
      | cons u us =>
        rw [← hre]
        have hjoin : joinSpace (w :: rest) = w ++ ' ' :: joinSpace rest := by
          rw [hre, joinSpace_cons_cons]
        by_cases hj0 : j = 0
        · subst hj0
          simp only [List.take_succ_cons, List.take_zero, List.drop_succ_cons, List.drop_zero]
          rw [hjoin, joinSpace_single]
        · have hk2 : j + 1 < rest.length + 1 := by simpa using hk
          have hjlt : j < rest.length := by omega
          have hjpos : 0 < j := by omega
          have htk : (w :: rest).take (j + 1) = w :: rest.take j := by simp
          have hdr : (w :: rest).drop (j + 1) = rest.drop j := by simp
          rw [htk, hdr, hjoin, ih j hjpos hjlt]
          have htkne : rest.take j ≠ [] := by
            intro he
            have hlt : (rest.take j).length = min j rest.length := List.length_take j rest
            rw [he] at hlt
            simp only [List.length_nil] at hlt
            omega
          cases hte : rest.take j with
          | nil => exact absurd hte htkne
          | cons v vs =>
            rw [joinSpace_cons_cons w v vs]
            simp

/-! ## Claim C1: window structure of `chunk_text` -/

theorem chunk_text_eq_loop (size overlap : Nat) (text : String)
    (hne : ¬ pystrip text.data = [])
    (hlong : ¬ (pysplitChars text.data).length ≤ size) :
    chunk_text size overlap text =
      chunkLoop size (size - overlap) text (pysplitChars text.data)
        (pysplitChars text.data).length 0 0 := by
  unfold chunk_text
  rw [if_neg hne, if_neg hlong]

/-- C1 (amended).  For a text whose word count exceeds `size`, `chunk_text`
emits the window of `size` words starting at word index `i * (size -
overlap)` as the chunk at list index `i` (with position counter `i`, hence
positions `0, 1, 2, …` without gaps), for every `i` with
`i * (size - overlap) < word count`.  Every chunk whose window fits inside
the word list has exactly `size` words and shares exactly its last
`overlap` words with the first `overlap` words of the following chunk;
chunks whose window overruns the end of the word list (of which there can
be several, not just the final chunk) are shorter. -/
theorem chunk_text_window_structure (size overlap : Nat) (text : String)
    (hov : overlap < size)
    (hlong : size < (pysplitChars text.data).length) :
    (∀ i, (chunk_text size overlap text).get? i =
        if i * (size - overlap) < (pysplitChars text.data).length then
          some (windowChunk size text (pysplitChars text.data)
            (i * (size - overlap)) i)
        else none) ∧
    (∀ i, i < (chunk_text size overlap text).length ↔
        i * (size - overlap) < (pysplitChars text.data).length) ∧
    (∀ i, i * (size - overlap) + size ≤ (pysplitChars text.data).length →
      (((pysplitChars text.data).drop (i * (size - overlap))).take size).length
          = size ∧
      (((pysplitChars text.data).drop (i * (size - overlap))).take size).drop
            (size - overlap)
          = (((pysplitChars text.data).drop
              ((i + 1) * (size - overlap))).take size).take overlap ∧
      ((((pysplitChars text.data).drop
          ((i + 1) * (size - overlap))).take size).take overlap).length
          = overlap) := by
  have hstep : 0 < size - overlap := by omega
  have hne : ¬ pystrip text.data = [] := by
    rw [pystrip_nil_iff_pysplit_nil]
    intro he
    rw [he] at hlong
    simp at hlong
  have heq := chunk_text_eq_loop size overlap text hne (by omega)
  refine ⟨?_, ?_, ?_⟩
  · intro i
    rw [heq,
      chunkLoop_get? size (size - overlap) text (pysplitChars text.data) hstep
        (pysplitChars text.data).length 0 0 (by omega) i]
    simp
  · intro i
    rw [heq]
    rw [chunkLoop_length_iff size (size - overlap) text (pysplitChars text.data)
      hstep (pysplitChars text.data).length 0 0 (by omega) i]
    simp
  · intro i hfit
    refine ⟨?_, ?_, ?_⟩
    · rw [List.length_take, List.length_drop]
      omega
    · have e1 : (i + 1) * (size - overlap) = i * (size - overlap) + (size - overlap) := by
        ring
      rw [e1, List.drop_take, List.drop_drop, List.take_take]
      congr 1
      omega
    · have e1 : (i + 1) * (size - overlap) = i * (size - overlap) + (size - overlap) := by
        ring
      rw [e1, List.length_take, List.length_take, List.length_drop]
      omega

/-- C1 counterexample: with `size_words = 3`, `overlap_words = 2` on the
four-word text `"a b c d"` the loop produces chunks of 3, 3, 2 and 1 words,
so the chunk at index 2 is not the last chunk yet has fewer than
`size_words` words, refuting "each chunk contains exactly `size_words`
words except possibly the last". -/
theorem chunk_text_c1_counterexample :
    ¬ (∀ i c, (chunk_text 3 2 "a b c d").get? i = some c →
        i + 1 ≠ (chunk_text 3 2 "a b c d").length → c.word_count = 3) := by
  intro h
  have h2 := h 2 ⟨"c d", 2, 4, 7, 2, 3⟩ (by decide) (by decide)
  exact absurd h2 (by decide)

/-- Witness for `chunk_text_window_structure` at a concrete input. -/
theorem chunk_text_window_structure_witness :
    (chunk_text 3 2 "a b c d").get? 1 =
      some (windowChunk 3 "a b c d" (pysplitChars ("a b c d".data)) 1 1) := by
  have h := (chunk_text_window_structure 3 2 "a b c d" (by decide) (by decide)).1 1
  rw [h, if_pos (by decide)]

/-! ## Claim C2: character offsets of `chunk_text` -/

/-- C2 (amended).  For every chunk, `end_char = start_char + len(content)`,
`char_count = len(content)` and `end_char > start_char` hold; `start_char`
is the word-length estimate `sum(len(w) + 1 for w in words[:m])` (`m` the
chunk's first word index), which equals the true character index of the
chunk's content in the original text exactly when the text is the
single-space join of its words (no leading, trailing or repeated
whitespace) — in general the estimate and the true position differ. -/
theorem chunk_text_offsets (size overlap : Nat) (text : String)
    (hov : overlap < size) (hne : pystrip text.data ≠ []) :
    ∀ c ∈ chunk_text size overlap text,
      c.end_char = c.start_char + c.content.length ∧
      c.char_count = c.content.length ∧
      c.start_char = wordOffset (pysplitChars text.data)
        (c.position * (size - overlap)) ∧
      c.start_char < c.end_char ∧
      (text.data = joinSpace (pysplitChars text.data) →
        (text.data.drop c.start_char).take c.content.length = c.content.data) := by
  intro c hc
  by_cases hlen : (pysplitChars text.data).length ≤ size
  · -- single-chunk branch
    have hc1 : c =
        { content := text
          position := 0
          start_char := 0
          end_char := text.length
          word_count := (pysplitChars text.data).length
          char_count := text.length } := by
      unfold chunk_text at hc
      rw [if_neg hne, if_pos hlen] at hc
      simpa using hc
    subst hc1
    have htne : text.data ≠ [] := by
      intro he
      apply hne
      rw [pystrip_eq_nil_iff]
      intro x hx
      rw [he] at hx
      simp at hx
    refine ⟨by simp, rfl, by simp [wordOffset], ?_, ?_⟩
    · show 0 < text.length
      have : text.length = text.data.length := rfl
      rw [this]
      cases hd : text.data with
      | nil => exact absurd hd htne
      | cons a as => simp
    · intro _
      show (text.data.drop 0).take text.length = text.data
      have : text.length = text.data.length := rfl
      rw [List.drop_zero, this, List.take_length]
  · -- loop branch
    have hstep : 0 < size - overlap := by omega
    have heq := chunk_text_eq_loop size overlap text hne hlen
    rw [heq] at hc
    obtain ⟨i, hget⟩ := List.mem_iff_get?.mp hc
    rw [chunkLoop_get? size (size - overlap) text (pysplitChars text.data) hstep
      (pysplitChars text.data).length 0 0 (by omega) i] at hget
    by_cases hin : 0 + i * (size - overlap) < (pysplitChars text.data).length
    · rw [if_pos hin] at hget
      have hc2 : c = windowChunk size text (pysplitChars text.data)
          (0 + i * (size - overlap)) (0 + i) := by
        injection hget with h
        exact h.symm
      have hm : i * (size - overlap) < (pysplitChars text.data).length := by omega
      subst hc2
      have hz : 0 + i * (size - overlap) = i * (size - overlap) := by omega
      have hzp : 0 + i = i := by omega
      rw [hz, hzp]
      have hval := pysplitChars_valid text.data
      have hwordsne : ∀ w ∈ ((pysplitChars text.data).drop
          (i * (size - overlap))).take size, w ≠ [] :=
        fun w hw => (hval w (List.drop_subset _ _ (List.take_subset _ _ hw))).1
      have hwin_ne : ((pysplitChars text.data).drop
          (i * (size - overlap))).take size ≠ [] := by
        intro he
        have := congrArg List.length he
        rw [List.length_take, List.length_drop] at this
        simp at this
        omega
      have hctpos : 0 < (joinSpace (((pysplitChars text.data).drop
          (i * (size - overlap))).take size)).length :=
        joinSpace_length_pos _ hwin_ne hwordsne
      refine ⟨rfl, rfl, rfl, ?_, ?_⟩
      · show wordOffset (pysplitChars text.data) (i * (size - overlap)) <
          wordOffset (pysplitChars text.data) (i * (size - overlap)) +
            (String.mk (joinSpace (((pysplitChars text.data).drop
              (i * (size - overlap))).take size))).length
        rw [strLen_mk]
        omega
      · intro hcanon
        show (text.data.drop (wordOffset (pysplitChars text.data)
              (i * (size - overlap)))).take
            (String.mk (joinSpace (((pysplitChars text.data).drop
              (i * (size - overlap))).take size))).length =
          joinSpace (((pysplitChars text.data).drop
            (i * (size - overlap))).take size)
        rw [strLen_mk]
        have hdrop0 : text.data.drop (wordOffset (pysplitChars text.data)
            (i * (size - overlap))) =
            joinSpace ((pysplitChars text.data).drop (i * (size - overlap))) := by
          nth_rewrite 2 [hcanon]
          exact joinSpace_drop_offset (pysplitChars text.data) _ hm
        rw [hdrop0]
        by_cases hsz : size < ((pysplitChars text.data).drop
            (i * (size - overlap))).length
        · have hsplit := joinSpace_take_split
            ((pysplitChars text.data).drop (i * (size - overlap))) size
            (by omega) hsz
          conv_lhs => rw [hsplit]
          exact List.take_left _ _
        · have htk : ((pysplitChars text.data).drop
              (i * (size - overlap))).take size =
              (pysplitChars text.data).drop (i * (size - overlap)) :=
            List.take_of_length_le (by omega)
          rw [htk, List.take_length]
    · rw [if_neg hin] at hget
      simp at hget

/-- C2 counterexample: on the text `" a b c"` (leading space) with
`size_words = 2`, `overlap_words = 1`, the first chunk has content `"a b"`
and `start_char = 0`, but the text at characters `[0, 3)` is `" a "`, not
`"a b"` — `start_char` is not the character index at which the chunk's
content is located in the original text. -/
theorem chunk_text_c2_counterexample :
    ¬ (∀ c ∈ chunk_text 2 1 " a b c",
        (" a b c".data.drop c.start_char).take c.content.length = c.content.data) := by
  intro h
  have h1 := h ⟨"a b", 0, 0, 3, 2, 3⟩ (by decide)
  exact absurd h1 (by decide)

/-- Witness for `chunk_text_offsets` at a concrete canonical input. -/
theorem chunk_text_offsets_witness :
    ("a b c d".data.drop 2).take 5 = "b c d".data ∧ (7 : Nat) = 2 + "b c d".length := by
  have h := chunk_text_offsets 3 2 "a b c d" (by decide) (by decide)
    ⟨"b c d", 1, 2, 7, 3, 5⟩ (by decide)
  exact ⟨h.2.2.2.2 (by decide), h.1⟩

/-! ## Claim C7: `chunk_text_smart` never splits a paragraph -/

theorem strData_mk (l : List Char) : (String.mk l).data = l := rfl

/-- Words accumulated in `current_chunk_words` are always non-empty and
whitespace-free. -/
def smartWordsOk (cur : List (List Char)) : Prop :=
  ∀ w ∈ cur, w ≠ [] ∧ ∀ c ∈ w, ¬ isPySpace c

/-- Loop invariant for the paragraph loop: every processed paragraph's word
list appears contiguously either in an already-emitted chunk or in the
current accumulation. -/
def SmartInv (ps : List (List Char)) (st : SmartSt) : Prop :=
  smartWordsOk st.cur ∧
  ∀ q ∈ ps, pysplitChars q ≠ [] →
    (∃ c ∈ st.chunks, ∃ pre post,
        pysplitChars c.content.data = pre ++ pysplitChars q ++ post) ∨
    (∃ pre post, st.cur = pre ++ pysplitChars q ++ post)

theorem smartChunk_content_words (text : String) (pos : Nat)
    (cur : List (List Char)) (hok : smartWordsOk cur) :
    pysplitChars (smartChunk text pos cur).content.data = cur := by
  show pysplitChars (String.mk (joinSpace cur)).data = cur
  rw [strData_mk]
  exact pysplit_joinSpace cur hok

theorem smartStep_inv (size overlap : Nat) (text : String)
    (ps0 : List (List Char)) (st : SmartSt) (para : List Char)
    (h : SmartInv ps0 st) :
    SmartInv (ps0 ++ [para]) (smartStep size overlap text st para) := by
  obtain ⟨hok, hmem⟩ := h
  unfold smartStep
  by_cases hcond : st.cur.length + (pysplitChars para).length > size ∧ st.cur ≠ []
  · rw [if_pos hcond]
    constructor
    · intro w hw
      simp only [smartEmitSt] at hw
      rcases List.mem_append.mp hw with h1 | h1
      · exact hok w (List.drop_subset _ _ h1)
      · exact pysplitChars_valid para w h1
    · intro q hq hqne
      rcases List.mem_append.mp hq with hq1 | hq1
      · left
        rcases hmem q hq1 hqne with ⟨c, hc, pre, post, hpre⟩ | ⟨pre, post, hpre⟩
        · refine ⟨c, ?_, pre, post, hpre⟩
          simp only [smartEmitSt]
          exact List.mem_append_left _ hc
        · refine ⟨smartChunk text st.pos st.cur, ?_, pre, post, ?_⟩
          · simp [smartEmitSt]
          · rw [smartChunk_content_words text st.pos st.cur hok]
            exact hpre
      · have hq2 : q = para := by simpa using hq1
        subst hq2
        right
        exact ⟨(smartEmitSt overlap text st).cur, [], by simp⟩
  · rw [if_neg hcond]
    constructor
    · intro w hw
      rcases List.mem_append.mp hw with h1 | h1
      · exact hok w h1
      · exact pysplitChars_valid para w h1
    · intro q hq hqne
      rcases List.mem_append.mp hq with hq1 | hq1
      · rcases hmem q hq1 hqne with ⟨c, hc, pre, post, hpre⟩ | ⟨pre, post, hpre⟩
        · exact Or.inl ⟨c, hc, pre, post, hpre⟩
        · right
          refine ⟨pre, post ++ pysplitChars para, ?_⟩
          show st.cur ++ pysplitChars para = pre ++ pysplitChars q ++ (post ++ pysplitChars para)
          rw [hpre]
          simp
      · have hq2 : q = para := by simpa using hq1
        subst hq2
        right
        exact ⟨st.cur, [], by simp⟩

theorem smartLoop_inv (size overlap : Nat) (text : String) :
    ∀ (ps ps0 : List (List Char)) (st : SmartSt), SmartInv ps0 st →
      SmartInv (ps0 ++ ps) (ps.foldl (smartStep size overlap text) st) := by
  intro ps
  induction ps with
  | nil => intro ps0 st h; simpa using h
  | cons p ps ih =>
    intro ps0 st h
    have h1 := smartStep_inv size overlap text ps0 st p h
    have h2 := ih (ps0 ++ [p]) (smartStep size overlap text st p) h1
    simpa using h2

theorem chunkSmartFinal_inv (size overlap : Nat) (text : String) :
    SmartInv (splitSeq ['\n', '\n'] text.data)
      (chunkSmartFinal size overlap text) := by
  have h0 : SmartInv [] ⟨[], [], 0⟩ := by
    constructor
    · intro w hw; simp at hw
    · intro q hq; simp at hq
  have := smartLoop_inv size overlap text (splitSeq ['\n', '\n'] text.data) [] ⟨[], [], 0⟩ h0
  simpa [chunkSmartFinal] using this

/-- C7: `chunk_text_smart` never splits a paragraph across chunks — every
paragraph of the input (a maximal blank-line-delimited segment) with at
least one word has its whole word sequence contiguously inside a single
emitted chunk, even when the paragraph alone exceeds `size` words. -/
theorem chunk_text_smart_para_whole (size overlap : Nat) (text : String)
    (p : List Char) (hp : p ∈ splitSeq ['\n', '\n'] text.data)
    (hw : pysplitChars p ≠ []) :
    ∃ c ∈ chunk_text_smart size overlap text true,
      ∃ pre post, pysplitChars c.content.data = pre ++ pysplitChars p ++ post := by
  obtain ⟨hok, hmem⟩ := chunkSmartFinal_inv size overlap text
  have hcore : ∃ c ∈ chunkSmartCore size overlap text,
      ∃ pre post, pysplitChars c.content.data = pre ++ pysplitChars p ++ post := by
    rcases hmem p hp hw with ⟨c, hc, pre, post, hpre⟩ | ⟨pre, post, hpre⟩
    · refine ⟨c, ?_, pre, post, hpre⟩
      unfold chunkSmartCore
      by_cases hcur : (chunkSmartFinal size overlap text).cur ≠ []
      · rw [if_pos hcur]
        exact List.mem_append_left _ hc
      · rw [if_neg hcur]
        exact hc
    · have hcur : (chunkSmartFinal size overlap text).cur ≠ [] := by
        rw [hpre]
        intro he
        have := List.append_eq_nil.mp he
        have := List.append_eq_nil.mp this.1
        exact hw this.2
      refine ⟨smartChunk text (chunkSmartFinal size overlap text).pos
        (chunkSmartFinal size overlap text).cur, ?_, pre, post, ?_⟩
      · unfold chunkSmartCore
        rw [if_pos hcur]
        exact List.mem_append_right _ (by simp)
      · rw [smartChunk_content_words text _ _ hok]
        exact hpre
  obtain ⟨c, hc, pre, post, hpre⟩ := hcore
  refine ⟨c, ?_, pre, post, hpre⟩
  unfold chunk_text_smart
  have hne : ¬ chunkSmartCore size overlap text = [] := by
    intro he
    rw [he] at hc
    simp at hc
  rw [if_neg (by simp), if_neg hne]
  exact hc

/-- Witness for `chunk_text_smart_para_whole` at a concrete input: the
paragraph `"c"` of `"a b\n\nc"` lands whole inside the chunk `"b c"`. -/
theorem chunk_text_smart_para_whole_witness :
    ∃ c ∈ chunk_text_smart 2 1 "a b\n\nc" true,
      ∃ pre post, pysplitChars c.content.data = pre ++ pysplitChars ("c".data) ++ post :=
  chunk_text_smart_para_whole 2 1 "a b\n\nc" "c".data (by decide) (by decide)

/-! ## Claim C9: `TextChunker.__init__` argument substitution

`self.chunk_size = chunk_size_words or settings.chunk_size_words` (and the
analogous line for the overlap) replaces a `None` *or falsy* (`0`) argument
by the settings value; the `chunk_overlap >= chunk_size` validation then
runs on the substituted values.  Arguments are Python ints (modelled as
`Int`, `none` modelling Python `None`). -/

structure ChunkerSettings where
  chunk_size_words : Int
  chunk_overlap_words : Int
deriving DecidableEq

/-- Python `x or default` for an optional int argument: `None` and `0` are
falsy. -/
def pyOrInt (arg : Option Int) (default : Int) : Int :=
  match arg with
  | none => default
  | some v => if v = 0 then default else v

/-- Embedding of `TextChunker.__init__`: returns the validated
`(chunk_size, chunk_overlap)` pair or the `ValueError` message. -/
def textChunkerInit (chunk_size_words chunk_overlap_words : Option Int)
    (settings : ChunkerSettings) : Except String (Int × Int) :=
  if pyOrInt chunk_overlap_words settings.chunk_overlap_words ≥
      pyOrInt chunk_size_words settings.chunk_size_words then
    .error ("chunk_overlap must be less than chunk_size")
  else
    .ok (pyOrInt chunk_size_words settings.chunk_size_words,
      pyOrInt chunk_overlap_words settings.chunk_overlap_words)

/-- C9: passing `0` for either constructor argument is indistinguishable
from passing `None` (the settings value is silently substituted); a
returned overlap of `0` can only come from the settings, never from an
explicit argument; and the `overlap < size` configuration check is applied
to the substituted values. -/
theorem textChunkerInit_falsy_substitution
    (a o : Option Int) (s : ChunkerSettings) :
    (textChunkerInit (some 0) o s = textChunkerInit none o s) ∧
    (textChunkerInit a (some 0) s = textChunkerInit a none s) ∧
    (∀ sz ov, textChunkerInit a o s = .ok (sz, ov) →
      ov = 0 → s.chunk_overlap_words = 0) ∧
    ((∃ e, textChunkerInit a o s = .error e) ↔
      pyOrInt o s.chunk_overlap_words ≥ pyOrInt a s.chunk_size_words) := by
  refine ⟨rfl, rfl, ?_, ?_⟩
  · intro sz ov hok hov
    unfold textChunkerInit at hok
    by_cases hcond : pyOrInt o s.chunk_overlap_words ≥ pyOrInt a s.chunk_size_words
    · rw [if_pos hcond] at hok
      exact absurd hok (by simp)
    · rw [if_neg hcond] at hok
      have h1 : ov = pyOrInt o s.chunk_overlap_words := by
        injection hok with h
        have := congrArg Prod.snd h
        simpa using this.symm
      rw [h1] at hov
      cases o with
      | none => exact hov
      | some v =>
        simp only [pyOrInt] at hov
        by_cases hv : v = 0
        · rw [if_pos hv] at hov; exact hov
        · rw [if_neg hv] at hov; exact absurd hov hv
  · constructor
    · intro ⟨e, he⟩
      unfold textChunkerInit at he
      by_cases hcond : pyOrInt o s.chunk_overlap_words ≥ pyOrInt a s.chunk_size_words
      · exact hcond
      · rw [if_neg hcond] at he
        exact absurd he (by simp)
    · intro hcond
      refine ⟨"chunk_overlap must be less than chunk_size", ?_⟩
      unfold textChunkerInit
      rw [if_pos hcond]

/-- Witness for `textChunkerInit_falsy_substitution`: with the settings
defaults (3500/400), passing `chunk_size_words = 0` behaves exactly like
passing `None`. -/
theorem textChunkerInit_falsy_substitution_witness :
    textChunkerInit (some 0) (some 7) ⟨3500, 400⟩ =
      textChunkerInit none (some 7) ⟨3500, 400⟩ :=
  (textChunkerInit_falsy_substitution (some 0) (some 7) ⟨3500, 400⟩).1

/-! ## Claim C8: `EmbeddingCache` failure semantics
(`ScholarGraph/embeddings/cache.py`)

`get` checks whether the cache file exists, then reads/unpickles it inside
`try/except`; `set` writes inside `try/except`.  The file system and the
outcome of each underlying I/O operation are modelled explicitly, so the
theorems quantify over *all* I/O outcomes.  Embedding vectors are
`List ℚ`. -/

structure CacheStats where
  hits : Nat
  misses : Nat
  writes : Nat
deriving DecidableEq

/-- Outcome of `open(...); pickle.load(f)` for a cache file. -/
inductive ReadOutcome
  | ok (v : List ℚ)
  | ioError
deriving DecidableEq

/-- Outcome of `open(...); pickle.dump(embedding, f)`. -/
inductive WriteOutcome
  | ok
  | ioError
deriving DecidableEq

/-- Embedding of `EmbeddingCache.get`: miss when the file does not exist, miss (after the
printed error) when the read raises, hit returning the unpickled vector
otherwise. -/
def cacheGet (fileExists : Bool) (read : ReadOutcome) (stats : CacheStats) :
    Option (List ℚ) × CacheStats :=
  if fileExists then
    match read with
    | .ok v => (some v, { stats with hits := stats.hits + 1 })
    | .ioError => (none, { stats with misses := stats.misses + 1 })
  else (none, { stats with misses := stats.misses + 1 })

/-- Embedding of `EmbeddingCache.set`: `True` with `writes` incremented on success,
`False` (after the printed error) when the write raises. -/
def cacheSet (write : WriteOutcome) (stats : CacheStats) : Bool × CacheStats :=
  match write with
  | .ok => (true, { stats with writes := stats.writes + 1 })
  | .ioError => (false, stats)

/-- C8: for every file-system state and every I/O outcome, `get` and `set`
return plain values (no exception escapes the cache boundary): a failed
read is reported exactly as a cache miss (`None`, `misses + 1`), a failed
write is reported as `set` returning `False`, and the only possible results
are the hit/miss/write-success/write-failure quadruple below. -/
theorem cache_failure_semantics (stats : CacheStats) :
    (∀ fe : Bool, cacheGet fe .ioError stats =
      (none, { stats with misses := stats.misses + 1 })) ∧
    (cacheSet .ioError stats = (false, stats)) ∧
    (∀ fe rd, (cacheGet fe rd stats).1 = none →
      (cacheGet fe rd stats).2.misses = stats.misses + 1) ∧
    (∀ fe rd, (∃ v, cacheGet fe rd stats =
        (some v, { stats with hits := stats.hits + 1 })) ∨
      cacheGet fe rd stats = (none, { stats with misses := stats.misses + 1 })) ∧
    (∀ wr, cacheSet wr stats = (true, { stats with writes := stats.writes + 1 }) ∨
      cacheSet wr stats = (false, stats)) := by
  refine ⟨?_, rfl, ?_, ?_, ?_⟩
  · intro fe
    cases fe with
    | false => rfl
    | true => rfl
  · intro fe rd
    cases fe with
    | false => intro _; rfl
    | true =>
      cases rd with
      | ok v => intro h; simp [cacheGet] at h
      | ioError => intro _; rfl
  · intro fe rd
    cases fe with
    | false => right; rfl
    | true =>
      cases rd with
      | ok v => left; exact ⟨v, rfl⟩
      | ioError => right; rfl
  · intro wr
    cases wr with
    | ok => left; rfl
    | ioError => right; rfl

/-- Witness for `cache_failure_semantics` at a concrete statistics record:
a failed read on an existing file is a miss and a failed write returns
`False`. -/
theorem cache_failure_semantics_witness :
    cacheGet true .ioError ⟨3, 4, 5⟩ = (none, ⟨3, 5, 5⟩) ∧
      cacheSet .ioError ⟨3, 4, 5⟩ = (false, ⟨3, 4, 5⟩) :=
  ⟨(cache_failure_semantics ⟨3, 4, 5⟩).1 true,
    (cache_failure_semantics ⟨3, 4, 5⟩).2.1⟩

/-! ## Embedding generator (`ScholarGraph/embeddings/generator.py`)

`generate_embedding` checks for empty/whitespace text, consults the
in-memory cache (`self._cache`, a dict keyed by a SHA-256 digest of the
text — modelled as the text itself, since the key derivation is injective
for the purposes of these claims), and otherwise calls
`_generate_embedding_impl` inside `try/except`.

`_generate_embedding_impl` tries the GPU-rig client (catching
`NotImplementedError` and general exceptions), then sentence-transformers
(catching `ImportError` and general exceptions), then returns the
all-zeros dummy vector of the configured dimension.  The outcome of each
backend for the given call is modelled by `ImplEnv`. -/

/-- Outcome of `self.gpu_client.generate_embedding(text)`. -/
inductive GpuOutcome
  | val (v : Option (List ℚ))
  | notImplErr
  | exc
deriving DecidableEq

/-- Outcome of `self._generate_with_sentence_transformers(text)`. -/
inductive StOutcome
  | val (v : Option (List ℚ))
  | importErr
  | exc
deriving DecidableEq

/-- Backend outcomes for one embedding call; `gpu = none` models
`self.gpu_client is None`. -/
structure ImplEnv where
  gpu : Option GpuOutcome
  st : StOutcome
deriving DecidableEq

/-- A Python exception escaping a call (never actually produced by the
implementation — see `generate_embedding_never_fails`). -/
inductive PyExc
  | exc
deriving DecidableEq

/-- Python truthiness of an `Optional[List[float]]`: `None` and `[]` are
falsy. -/
def pyTruthyVec : Option (List ℚ) → Bool
  | none => false
  | some v => ¬ v = []

/-- GPU-rig stage of `_generate_embedding_impl`: the returned vector if the
client exists and returns a truthy value; `None` when the client is absent,
raises `NotImplementedError` (pass) or any other exception (printed). -/
def gpuImplResult : Option GpuOutcome → Option (List ℚ)
  | none => none
  | some (.val v) => if pyTruthyVec v then v else none
  | some .notImplErr => none
  | some .exc => none

/-- Sentence-transformers stage: the returned vector if truthy; `None` on
`ImportError` (warning printed) or any other exception (printed). -/
def stImplResult : StOutcome → Option (List ℚ)
  | .val v => if pyTruthyVec v then v else none
  | .importErr => none
  | .exc => none

/-- Embedding of `EmbeddingGenerator._generate_embedding_impl`: GPU rig, then
sentence-transformers, then the all-zeros fallback.  All backend
exceptions are caught, hence the `Except` is always `.ok`. -/
def generateEmbeddingImpl (dim : Nat) (env : ImplEnv) : Except PyExc (List ℚ) :=
  match gpuImplResult env.gpu with
  | some v => .ok v
  | none =>
    match stImplResult env.st with
    | some v => .ok v
    | none => .ok (List.replicate dim 0)

/-- Lookup in the in-memory cache dict. -/
def lookupAssoc (k : String) : List (String × List ℚ) → Option (List ℚ)
  | [] => none
  | (k', v) :: rest => if k' = k then some v else lookupAssoc k rest

/-- Overwriting insertion, as Python dict assignment. -/
def insertAssoc (k : String) (v : List ℚ) :
    List (String × List ℚ) → List (String × List ℚ)
  | [] => [(k, v)]
  | (k', v') :: rest =>
    if k' = k then (k, v) :: rest else (k', v') :: insertAssoc k v rest

theorem lookupAssoc_insertAssoc (k : String) (v : List ℚ)
    (l : List (String × List ℚ)) :
    lookupAssoc k (insertAssoc k v l) = some v := by
  induction l with
  | nil => simp [insertAssoc, lookupAssoc]
  | cons p rest ih =>
    obtain ⟨k', v'⟩ := p
    by_cases hk : k' = k
    · rw [insertAssoc, if_pos hk, lookupAssoc, if_pos rfl]
    · rw [insertAssoc, if_neg hk, lookupAssoc, if_neg hk]
      exact ih

/-- Statistics record `EmbeddingGenerator.stats`. -/
structure GenStats where
  embeddings_generated : Nat
  cache_hits : Nat
  cache_misses : Nat
  errors : Nat
deriving DecidableEq

/-- Mutable state of an `EmbeddingGenerator`. -/
structure GenState where
  cache : List (String × List ℚ)
  stats : GenStats
  use_cache : Bool
  embedding_dimension : Nat
deriving DecidableEq

/-- Result of the initial cache consultation in `generate_embedding`:
either a hit value or the state after a recorded miss. -/
def genCacheLookup (g : GenState) (text : String) : Option (List ℚ) × GenState :=
  if g.use_cache then
    match lookupAssoc text g.cache with
    | some v => (some v,
        { g with stats := { g.stats with cache_hits := g.stats.cache_hits + 1 } })
    | none => (none,
        { g with stats := { g.stats with cache_misses := g.stats.cache_misses + 1 } })
  else (none, g)

/-- Embedding of `EmbeddingGenerator.generate_embedding`. -/
def generate_embedding (env : ImplEnv) (g : GenState) (text : String) :
    Option (List ℚ) × GenState :=
  if text = "" ∨ pystrip text.data = [] then (none, g)
  else
    match genCacheLookup g text with
    | (some v, g1) => (some v, g1)
    | (none, g1) =>
      match generateEmbeddingImpl g.embedding_dimension env with
      | .ok embedding =>
        if ¬ embedding = [] then
          (some embedding,
            { g1 with
                cache := if g1.use_cache then insertAssoc text embedding g1.cache
                  else g1.cache
                stats := { g1.stats with
                  embeddings_generated := g1.stats.embeddings_generated + 1 } })
        else (none, g1)
      | .error _ => (none,
          { g1 with stats := { g1.stats with errors := g1.stats.errors + 1 } })

example :
    generate_embedding ⟨none, .val (some [5])⟩ ⟨[], ⟨0, 0, 0, 0⟩, true, 1⟩ "a" =
      (some [5], ⟨[("a", [5])], ⟨1, 0, 1, 0⟩, true, 1⟩) := rfl
example :
    generate_embedding ⟨some .exc, .exc⟩ ⟨[], ⟨0, 0, 0, 0⟩, true, 1⟩ "a" =
      (some [0], ⟨[("a", [0])], ⟨1, 0, 1, 0⟩, true, 1⟩) := rfl
example :
    generate_embedding ⟨none, .exc⟩ ⟨[], ⟨0, 0, 0, 0⟩, true, 1⟩ "  " =
      (none, ⟨[], ⟨0, 0, 0, 0⟩, true, 1⟩) := by decide

/-! ## Claims C6 and C10: generator idempotence and totality -/

/-- The fallback chain of `_generate_embedding_impl` always returns a
vector (never propagates an exception), and that vector is non-empty
whenever the configured dimension is positive. -/
theorem truthyGate_ne_nil (v : Option (List ℚ)) (l : List ℚ)
    (h : (if pyTruthyVec v then v else none) = some l) : l ≠ [] := by
  by_cases ht : pyTruthyVec v
  · rw [if_pos ht] at h
    subst h
    simp [pyTruthyVec] at ht
    exact ht
  · rw [if_neg ht] at h
    exact absurd h (by simp)

theorem gpuImplResult_ne_nil (o : Option GpuOutcome) (l : List ℚ)
    (h : gpuImplResult o = some l) : l ≠ [] := by
  cases o with
  | none => exact absurd h (by simp [gpuImplResult])
  | some go =>
    cases go with
    | val v => exact truthyGate_ne_nil v l h
    | notImplErr => exact absurd h (by simp [gpuImplResult])
    | exc => exact absurd h (by simp [gpuImplResult])

theorem stImplResult_ne_nil (o : StOutcome) (l : List ℚ)
    (h : stImplResult o = some l) : l ≠ [] := by
  cases o with
  | val v => exact truthyGate_ne_nil v l h
  | importErr => exact absurd h (by simp [stImplResult])
  | exc => exact absurd h (by simp [stImplResult])

/-- The fallback chain of `_generate_embedding_impl` always returns a
vector (never propagates an exception), and that vector is non-empty
whenever the configured dimension is positive. -/
theorem generateEmbeddingImpl_ok (dim : Nat) (hdim : 0 < dim) (env : ImplEnv) :
    ∃ v, generateEmbeddingImpl dim env = .ok v ∧ v ≠ [] := by
  have hzero : (List.replicate dim (0 : ℚ)) ≠ [] := by
    intro he
    have := congrArg List.length he
    simp at this
    omega
  unfold generateEmbeddingImpl
  cases hg : gpuImplResult env.gpu with
  | some v => exact ⟨v, rfl, gpuImplResult_ne_nil env.gpu v hg⟩
  | none =>
    cases hs : stImplResult env.st with
    | some v => exact ⟨v, rfl, stImplResult_ne_nil env.st v hs⟩
    | none => exact ⟨List.replicate dim 0, rfl, hzero⟩

theorem genCacheLookup_preserves (g : GenState) (text : String) :
    (genCacheLookup g text).2.stats.errors = g.stats.errors ∧
    (genCacheLookup g text).2.stats.embeddings_generated =
      g.stats.embeddings_generated ∧
    (genCacheLookup g text).2.use_cache = g.use_cache ∧
    (genCacheLookup g text).2.cache = g.cache := by
  unfold genCacheLookup
  by_cases hu : g.use_cache = true
  · rw [if_pos hu]
    cases hl : lookupAssoc text g.cache <;> simp
  · rw [if_neg hu]
    simp

/-- C10: for every non-whitespace text and positive configured dimension,
`_generate_embedding_impl` returns a non-empty vector for every backend
outcome (so the outer `except` branch of `generate_embedding` is
unreachable), `generate_embedding` returns a vector (never `None`, never an
exception), and the `errors` counter is never incremented. -/
theorem generate_embedding_never_fails (env : ImplEnv) (g : GenState)
    (text : String) (hws : pystrip text.data ≠ [])
    (hdim : 0 < g.embedding_dimension) :
    (∃ v, generateEmbeddingImpl g.embedding_dimension env = .ok v ∧ v ≠ []) ∧
    (∃ v, (generate_embedding env g text).1 = some v) ∧
    (generate_embedding env g text).2.stats.errors = g.stats.errors := by
  have himpl := generateEmbeddingImpl_ok g.embedding_dimension hdim env
  refine ⟨himpl, ?_⟩
  have hcond : ¬ (text = "" ∨ pystrip text.data = []) := by
    rintro (h1 | h2)
    · subst h1
      exact hws rfl
    · exact hws h2
  obtain ⟨v0, hok, hne⟩ := himpl
  have hpres := genCacheLookup_preserves g text
  rw [generate_embedding, if_neg hcond]
  cases hcl : genCacheLookup g text with
  | mk fst snd =>
    rw [hcl] at hpres
    cases fst with
    | some w => exact ⟨⟨w, rfl⟩, hpres.1⟩
    | none =>
      rw [hok]
      constructor
      · exact ⟨v0, by simp [hne]⟩
      · simp only at hpres
        simp [hne, hpres.1]

/-- Witness for `generate_embedding_never_fails`: with no GPU client and a
sentence-transformers crash, the dummy zero vector is returned and the
error counter stays 0. -/
theorem generate_embedding_never_fails_witness :
    (∃ v, (generate_embedding ⟨some .exc, .exc⟩
      ⟨[], ⟨0, 0, 0, 0⟩, true, 1⟩ "a").1 = some v) ∧
    (generate_embedding ⟨some .exc, .exc⟩
      ⟨[], ⟨0, 0, 0, 0⟩, true, 1⟩ "a").2.stats.errors = 0 :=
  ⟨(generate_embedding_never_fails ⟨some .exc, .exc⟩
      ⟨[], ⟨0, 0, 0, 0⟩, true, 1⟩ "a" (by decide) (by decide)).2.1,
    (generate_embedding_never_fails ⟨some .exc, .exc⟩
      ⟨[], ⟨0, 0, 0, 0⟩, true, 1⟩ "a" (by decide) (by decide)).2.2⟩

/-- C6: with caching enabled, if a first call to `generate_embedding`
returns a vector, a second call with the identical text returns the
identical vector and changes the state only by incrementing the cache-hit
counter — in particular `embeddings_generated` is unchanged and no backend
(even a different one) is consulted. -/
theorem generate_embedding_idempotent (env1 env2 : ImplEnv) (g : GenState)
    (text : String) (v : List ℚ) (g1 : GenState)
    (huse : g.use_cache = true)
    (h1 : generate_embedding env1 g text = (some v, g1)) :
    generate_embedding env2 g1 text =
      (some v, { g1 with stats :=
        { g1.stats with cache_hits := g1.stats.cache_hits + 1 } }) := by
  have hcond : ¬ (text = "" ∨ pystrip text.data = []) := by
    intro hc
    rw [generate_embedding, if_pos hc] at h1
    exact absurd (congrArg Prod.fst h1) (by simp)
  rw [generate_embedding, if_neg hcond] at h1
  -- establish: g1.use_cache = true and lookupAssoc text g1.cache = some v
  have hkey : g1.use_cache = true ∧ lookupAssoc text g1.cache = some v := by
    cases hl : lookupAssoc text g.cache with
    | some w =>
      have hg : genCacheLookup g text = (some w,
          { g with stats :=
            { g.stats with cache_hits := g.stats.cache_hits + 1 } }) := by
        unfold genCacheLookup
        rw [if_pos huse, hl]
      rw [hg] at h1
      simp only [Prod.mk.injEq, Option.some.injEq] at h1
      obtain ⟨hv, hg1⟩ := h1
      rw [← hg1]
      exact ⟨huse, by simpa [hv] using hl⟩
    | none =>
      have hg : genCacheLookup g text = (none,
          { g with stats :=
            { g.stats with cache_misses := g.stats.cache_misses + 1 } }) := by
        unfold genCacheLookup
        rw [if_pos huse, hl]
      rw [hg] at h1
      simp only [] at h1
      cases himpl : generateEmbeddingImpl g.embedding_dimension env1 with
      | error e =>
        rw [himpl] at h1
        exact absurd (congrArg Prod.fst h1) (by simp)
      | ok emb =>
        rw [himpl] at h1
        simp only [] at h1
        by_cases hemb : emb = []
        · rw [if_neg (by simpa using hemb)] at h1
          exact absurd (congrArg Prod.fst h1) (by simp)
        · rw [if_pos (by simpa using hemb)] at h1
          simp only [Prod.mk.injEq, Option.some.injEq] at h1
          obtain ⟨hv, hg1⟩ := h1
          rw [← hg1]
          constructor
          · simp [huse]
          · simp [huse, hv, lookupAssoc_insertAssoc]
  obtain ⟨huse1, hlook1⟩ := hkey
  rw [generate_embedding, if_neg hcond]
  have hg2 : genCacheLookup g1 text = (some v,
      { g1 with stats :=
        { g1.stats with cache_hits := g1.stats.cache_hits + 1 } }) := by
    unfold genCacheLookup
    rw [if_pos huse1, hlook1]
  rw [hg2]

/-- Witness for `generate_embedding_idempotent`: a concrete first call that
generates and caches `[5]`, followed by a second call that hits the
cache. -/
theorem generate_embedding_idempotent_witness :
    generate_embedding ⟨some .exc, .exc⟩
        ⟨[("a", [5])], ⟨1, 0, 1, 0⟩, true, 1⟩ "a" =
      (some [5], ⟨[("a", [5])], ⟨1, 1, 1, 0⟩, true, 1⟩) := by
  have h := generate_embedding_idempotent ⟨none, .val (some [5])⟩ ⟨some .exc, .exc⟩
    ⟨[], ⟨0, 0, 0, 0⟩, true, 1⟩ "a" [5] ⟨[("a", [5])], ⟨1, 0, 1, 0⟩, true, 1⟩
    rfl rfl
  exact h

/-! ## Hybrid search result fusion (`ScholarGraph/search/hybrid_search.py`)

`HybridSearch.search_chunks` obtains semantic and keyword result lists from
the two external search paths (modelled as the two input lists, each record
carrying `chunk_id`, `score` and `ingestion_date`), fuses them with
`_combine_results`, sorts by `(hybrid_score, ingestion_date)` descending
(Python's stable `list.sort(..., reverse=True)`) and truncates to `k`. -/

structure SearchRec where
  chunk_id : Option String
  score : ℚ
  ingestion_date : Option String
deriving DecidableEq

/-- A result record after `_combine_results` attached the three scores. -/
structure FusedRec where
  base : SearchRec
  hybrid_score : ℚ
  semantic_score : ℚ
  keyword_score : ℚ
deriving DecidableEq

/-- The score dict `{r['chunk_id']: r['score'] for r in results if 'chunk_id'
in r}`: on duplicate ids the later record wins, as in a dict comprehension. -/
def scoreDict (rs : List SearchRec) (id : String) : Option ℚ :=
  rs.foldl
    (fun acc r =>
      match r.chunk_id with
      | some cid => if cid = id then some r.score else acc
      | none => acc)
    none

/-- Ids of records that carry a `chunk_id` key, in list order. -/
def chunkIds (rs : List SearchRec) : List String :=
  rs.filterMap (fun r => r.chunk_id)

/-- The union `set(semantic) | set(keyword)` of chunk ids (set iteration
order modelled by `dedup`; the final sort makes the order canonical up to
full key ties). -/
def allChunkIds (sem kw : List SearchRec) : List String :=
  (chunkIds sem ++ chunkIds kw).dedup

/-- First record with the given chunk id (`for r in results: if r.get('chunk_id')
== chunk_id: break`). -/
def findByChunkId (rs : List SearchRec) (id : String) : Option SearchRec :=
  rs.find? (fun r => decide (r.chunk_id = some id))

/-- One fused record of `_combine_results` for a chunk id: component scores
default to 0, `hybrid_score = semantic_weight * semantic_score +
keyword_weight * keyword_score`, the record data taken from the semantic
list first, else the keyword list. -/
def mkFused (semanticWeight keywordWeight : ℚ) (sem kw : List SearchRec)
    (id : String) : Option FusedRec :=
  match (findByChunkId sem id).orElse (fun _ => findByChunkId kw id) with
  | some r => some
      { base := r
        hybrid_score := semanticWeight * ((scoreDict sem id).getD 0) +
          keywordWeight * ((scoreDict kw id).getD 0)
        semantic_score := (scoreDict sem id).getD 0
        keyword_score := (scoreDict kw id).getD 0 }
  | none => none

/-- Embedding of `HybridSearch._combine_results`. -/
def combineResults (semanticWeight keywordWeight : ℚ)
    (sem kw : List SearchRec) : List FusedRec :=
  (allChunkIds sem kw).filterMap (mkFused semanticWeight keywordWeight sem kw)

/-- Python tuple comparison `(x.hybrid_score, x.ingestion_date) <
(y.hybrid_score, y.ingestion_date)` used as the sort key (`.get` defaults:
score 0 — always present on fused records — and date `''`). -/
def keyLt (x y : FusedRec) : Prop :=
  x.hybrid_score < y.hybrid_score ∨
    (x.hybrid_score = y.hybrid_score ∧
      strLtB (x.base.ingestion_date.getD ("")).data
        (y.base.ingestion_date.getD ("")).data = true)

instance keyLt.instDecidable (x y : FusedRec) : Decidable (keyLt x y) := by
  unfold keyLt
  infer_instance

/-- One insertion step of a stable descending sort: `x` is placed before
the first element it is greater than or equal to, preserving original
order among equal keys exactly as Python's stable
`sort(key=..., reverse=True)`. -/
def insertDesc (x : FusedRec) : List FusedRec → List FusedRec
  | [] => [x]
  | y :: ys => if keyLt x y then y :: insertDesc x ys else x :: y :: ys

/-- Stable descending sort by `(hybrid_score, ingestion_date)`, behaviourally
equal to Python's stable `list.sort` with `reverse=True` on that key. -/
def sortDesc : List FusedRec → List FusedRec
  | [] => []
  | x :: rest => insertDesc x (sortDesc rest)

/-- Embedding of `HybridSearch.search_chunks` after the two retrieval calls: combine,
sort by hybrid score (tie: ingestion date, most recent first), truncate. -/
def search_chunks_fuse (semanticWeight keywordWeight : ℚ) (k : Nat)
    (sem kw : List SearchRec) : List FusedRec :=
  (sortDesc (combineResults semanticWeight keywordWeight sem kw)).take k

/-! ### Order lemmas for the sort key -/

theorem strLtB_irrefl (a : List Char) : strLtB a a = false := by
  induction a with
  | nil => rfl
  | cons c cs ih =>
    rw [strLtB, if_neg (lt_irrefl c), if_neg (lt_irrefl c)]
    exact ih

theorem strLtB_trans (a : List Char) :
    ∀ b c, strLtB a b = true → strLtB b c = true → strLtB a c = true := by
  induction a with
  | nil =>
    intro b c h1 h2
    cases b with
    | nil => exact absurd h1 (by simp [strLtB])
    | cons y ys =>
      cases c with
      | nil => exact absurd h2 (by simp [strLtB])
      | cons z zs => rfl
  | cons x xs ih =>
    intro b c h1 h2
    cases b with
    | nil => exact absurd h1 (by simp [strLtB])
    | cons y ys =>
      cases c with
      | nil => exact absurd h2 (by simp [strLtB])
      | cons z zs =>
        rw [strLtB] at h1 h2 ⊢
        by_cases hxy : x < y
        · rw [if_pos hxy] at h1
          by_cases hyz : y < z
          · rw [if_pos (lt_trans hxy hyz)]
          · by_cases hzy : z < y
            · rw [if_neg hyz, if_pos hzy] at h2
              exact absurd h2 (by simp)
            · have hyz2 : y = z := le_antisymm (not_lt.mp hzy) (not_lt.mp hyz)
              rw [if_pos (hyz2 ▸ hxy)]
        · rw [if_neg hxy] at h1
          by_cases hyx : y < x
          · rw [if_pos hyx] at h1
            exact absurd h1 (by simp)
          · have hxy2 : x = y := le_antisymm (not_lt.mp hyx) (not_lt.mp hxy)
            rw [if_neg hyx] at h1
            by_cases hyz : y < z
            · rw [if_pos (hxy2 ▸ hyz)]
            · by_cases hzy : z < y
              · rw [if_neg hyz, if_pos hzy] at h2
                exact absurd h2 (by simp)
              · have hyz2 : y = z := le_antisymm (not_lt.mp hzy) (not_lt.mp hyz)
                rw [if_neg hyz, if_neg hzy] at h2
                have hxz : ¬ x < z := hyz2 ▸ hxy2 ▸ hxy
                have hzx : ¬ z < x := by
                  rw [← hyz2, ← hxy2]
                  exact lt_irrefl x
                rw [if_neg hxz, if_neg hzx]
                exact ih ys zs h1 h2

theorem strLtB_total_of_ne (a : List Char) :
    ∀ b, a ≠ b → strLtB a b = true ∨ strLtB b a = true := by
  induction a with
  | nil =>
    intro b hne
    cases b with
    | nil => exact absurd rfl hne
    | cons y ys => left; rfl
  | cons x xs ih =>
    intro b hne
    cases b with
    | nil => right; rfl
    | cons y ys =>
      by_cases hxy : x < y
      · left; rw [strLtB, if_pos hxy]
      · by_cases hyx : y < x
        · right; rw [strLtB, if_pos hyx]
        · have hxy2 : x = y := le_antisymm (not_lt.mp hyx) (not_lt.mp hxy)
          subst hxy2
          have hne2 : xs ≠ ys := by
            intro he
            exact hne (by rw [he])
          rcases ih ys hne2 with h | h
          · left
            rw [strLtB, if_neg (lt_irrefl x), if_neg (lt_irrefl x)]
            exact h
          · right
            rw [strLtB, if_neg (lt_irrefl x), if_neg (lt_irrefl x)]
            exact h

theorem strLtB_asymm (a b : List Char) (h : strLtB a b = true) :
    strLtB b a = false := by
  by_contra hc
  have h2 : strLtB b a = true := by
    cases he : strLtB b a with
    | false => exact absurd he hc
    | true => rfl
  have := strLtB_trans a b a h h2
  rw [strLtB_irrefl] at this
  exact absurd this (by simp)

theorem keyLt_asymm (x y : FusedRec) (h : keyLt x y) : ¬ keyLt y x := by
  intro h2
  rcases h with hs | ⟨he, hd⟩
  · rcases h2 with hs2 | ⟨he2, _⟩
    · exact absurd (lt_trans hs hs2) (lt_irrefl _)
    · rw [he2] at hs
      exact absurd hs (lt_irrefl _)
  · rcases h2 with hs2 | ⟨he2, hd2⟩
    · rw [he] at hs2
      exact absurd hs2 (lt_irrefl _)
    · rw [strLtB_asymm _ _ hd] at hd2
      exact absurd hd2 (by simp)

theorem keyLt_neg_trans (x y z : FusedRec) (h : keyLt x z) :
    keyLt x y ∨ keyLt y z := by
  rcases h with hs | ⟨he, hd⟩
  · rcases lt_or_le x.hybrid_score y.hybrid_score with h1 | h1
    · exact Or.inl (Or.inl h1)
    · exact Or.inr (Or.inl (lt_of_le_of_lt h1 hs))
  · rcases lt_trichotomy x.hybrid_score y.hybrid_score with h1 | h1 | h1
    · exact Or.inl (Or.inl h1)
    · by_cases hdd : (x.base.ingestion_date.getD ("")).data =
          (y.base.ingestion_date.getD ("")).data
      · refine Or.inr (Or.inr ⟨by rw [← h1, he], ?_⟩)
        rw [← hdd]
        exact hd
      · rcases strLtB_total_of_ne _ _ hdd with h2 | h2
        · exact Or.inl (Or.inr ⟨h1, h2⟩)
        · refine Or.inr (Or.inr ⟨by rw [← h1, he], strLtB_trans _ _ _ h2 hd⟩)
    · exact Or.inr (Or.inl (by rw [← he]; exact h1))

theorem mem_insertDesc (x a : FusedRec) (l : List FusedRec) :
    a ∈ insertDesc x l ↔ a = x ∨ a ∈ l := by
  induction l with
  | nil => simp [insertDesc]
  | cons y ys ih =>
    unfold insertDesc
    by_cases h : keyLt x y
    · rw [if_pos h]
      simp only [List.mem_cons, ih]
      tauto
    · rw [if_neg h]
      simp only [List.mem_cons]

theorem insertDesc_perm (x : FusedRec) (l : List FusedRec) :
    List.Perm (insertDesc x l) (x :: l) := by
  induction l with
  | nil => simp [insertDesc]
  | cons y ys ih =>
    unfold insertDesc
    by_cases h : keyLt x y
    · rw [if_pos h]
      exact List.Perm.trans (List.Perm.cons y ih) (List.Perm.swap x y ys)
    · rw [if_neg h]

theorem sortDesc_perm (l : List FusedRec) : List.Perm (sortDesc l) l := by
  induction l with
  | nil => simp [sortDesc]
  | cons x rest ih =>
    unfold sortDesc
    exact List.Perm.trans (insertDesc_perm x (sortDesc rest)) (List.Perm.cons x ih)

theorem pairwise_insertDesc (x : FusedRec) (l : List FusedRec)
    (h : l.Pairwise (fun a b => ¬ keyLt a b)) :
    (insertDesc x l).Pairwise (fun a b => ¬ keyLt a b) := by
  induction l with
  | nil => simp [insertDesc]
  | cons y ys ih =>
    unfold insertDesc
    rcases List.pairwise_cons.mp h with ⟨hy, hys⟩
    by_cases hxy : keyLt x y
    · rw [if_pos hxy]
      refine List.pairwise_cons.mpr ⟨?_, ih hys⟩
      intro a ha
      rcases (mem_insertDesc x a ys).mp ha with ha1 | ha1
      · rw [ha1]
        exact keyLt_asymm x y hxy
      · exact hy a ha1
    · rw [if_neg hxy]
      refine List.pairwise_cons.mpr ⟨?_, h⟩
      intro a ha
      rcases List.mem_cons.mp ha with ha1 | ha1
      · rw [ha1]
        exact hxy
      · intro hlt
        rcases keyLt_neg_trans x y a hlt with h1 | h1
        · exact hxy h1
        · exact hy a ha1 h1

theorem sortDesc_pairwise (l : List FusedRec) :
    (sortDesc l).Pairwise (fun a b => ¬ keyLt a b) := by
  induction l with
  | nil => simp [sortDesc]
  | cons x rest ih =>
    unfold sortDesc
    exact pairwise_insertDesc x (sortDesc rest) ih

/-! ### Structural properties of `_combine_results` -/

theorem mkFused_chunk_id (w1 w2 : ℚ) (sem kw : List SearchRec) (id : String)
    (fr : FusedRec) (h : mkFused w1 w2 sem kw id = some fr) :
    fr.base.chunk_id = some id := by
  unfold mkFused at h
  cases hfs : (findByChunkId sem id).orElse (fun _ => findByChunkId kw id) with
  | none => rw [hfs] at h; exact absurd h (by simp)
  | some r =>
    rw [hfs] at h
    have hfr : fr.base = r := by
      injection h with h2
      rw [← h2]
    rw [hfr]
    rcases (Option.orElse_eq_some' _ _ _).mp hfs with h1 | ⟨_, h1⟩
    · have := List.find?_some h1
      simpa using this
    · have := List.find?_some h1
      simpa using this

theorem mkFused_isSome (w1 w2 : ℚ) (sem kw : List SearchRec) (id : String)
    (hid : id ∈ chunkIds sem ∨ id ∈ chunkIds kw) :
    ∃ fr, mkFused w1 w2 sem kw id = some fr := by
  unfold mkFused
  cases hfs : (findByChunkId sem id).orElse (fun _ => findByChunkId kw id) with
  | some r => exact ⟨_, rfl⟩
  | none =>
    exfalso
    rw [Option.orElse_eq_none' _ _] at hfs
    obtain ⟨h1, h2⟩ := hfs
    unfold findByChunkId at h1 h2
    rcases hid with hid | hid
    · obtain ⟨r, hr, hcid⟩ := List.mem_filterMap.mp hid
      have := List.find?_eq_none.mp h1 r hr
      simp [hcid] at this
    · obtain ⟨r, hr, hcid⟩ := List.mem_filterMap.mp hid
      have := List.find?_eq_none.mp h2 r hr
      simp [hcid] at this

theorem pairwise_filterMap_chunk_id (f : String → Option FusedRec)
    (hf : ∀ a fa, f a = some fa → fa.base.chunk_id = some a) :
    ∀ l : List String, l.Pairwise (fun a b => a ≠ b) →
      (l.filterMap f).Pairwise
        (fun x y => x.base.chunk_id ≠ y.base.chunk_id) := by
  intro l
  induction l with
  | nil => intro _; simp
  | cons a rest ih =>
    intro h
    rcases List.pairwise_cons.mp h with ⟨ha, hrest⟩
    cases hfa : f a with
    | none => rw [List.filterMap_cons_none hfa]; exact ih hrest
    | some fa =>
      rw [List.filterMap_cons_some hfa]
      refine List.pairwise_cons.mpr ⟨?_, ih hrest⟩
      intro y hy
      obtain ⟨b, hb, hfb⟩ := List.mem_filterMap.mp hy
      rw [hf a fa hfa, hf b y hfb]
      intro he
      injection he with he
      exact ha b hb he

/-- C3: for fixed semantic and keyword result lists, `_combine_results`
produces exactly one fused record per chunk id in the union of the two
lists, carrying `semantic_score`/`keyword_score` (0 when the id is missing
from a list) and `hybrid_score = semantic_weight * semantic_score +
keyword_weight * keyword_score`; `search_chunks` then sorts by hybrid score
descending with ties broken by ingestion date descending and truncates to
`k`.  In particular, fusing semantic `{c1: 0.9, c2: 0.4}` with keyword
`{c2: 0.8, c3: 0.6}` at weights 0.7/0.3 yields combined scores
`c1 ↦ 0.63, c2 ↦ 0.52, c3 ↦ 0.18`, ranked `c1, c2, c3`. -/
theorem search_chunks_fusion (w1 w2 : ℚ) (sem kw : List SearchRec) (k : Nat) :
    (∀ fr ∈ combineResults w1 w2 sem kw, ∃ id,
        fr.base.chunk_id = some id ∧
        (id ∈ chunkIds sem ∨ id ∈ chunkIds kw) ∧
        fr.semantic_score = (scoreDict sem id).getD 0 ∧
        fr.keyword_score = (scoreDict kw id).getD 0 ∧
        fr.hybrid_score = w1 * fr.semantic_score + w2 * fr.keyword_score) ∧
    (∀ id, (id ∈ chunkIds sem ∨ id ∈ chunkIds kw) →
        ∃ fr ∈ combineResults w1 w2 sem kw, fr.base.chunk_id = some id) ∧
    (combineResults w1 w2 sem kw).Pairwise
      (fun x y => x.base.chunk_id ≠ y.base.chunk_id) ∧
    List.Perm (sortDesc (combineResults w1 w2 sem kw))
      (combineResults w1 w2 sem kw) ∧
    (search_chunks_fuse w1 w2 k sem kw).Pairwise (fun x y => ¬ keyLt x y) ∧
    (search_chunks_fuse w1 w2 k sem kw).length =
      min k (combineResults w1 w2 sem kw).length ∧
    search_chunks_fuse (7/10) (3/10) 3
        [⟨some ("c1"), 9/10, none⟩, ⟨some ("c2"), 4/10, none⟩]
        [⟨some ("c2"), 8/10, none⟩, ⟨some ("c3"), 6/10, none⟩] =
      [⟨⟨some ("c1"), 9/10, none⟩, 63/100, 9/10, 0⟩,
       ⟨⟨some ("c2"), 4/10, none⟩, 52/100, 4/10, 8/10⟩,
       ⟨⟨some ("c3"), 6/10, none⟩, 18/100, 0, 6/10⟩] := by
  refine ⟨?_, ?_, ?_, sortDesc_perm _, ?_, ?_, ?_⟩
  · intro fr hfr
    obtain ⟨id, hidmem, hmk⟩ := List.mem_filterMap.mp hfr
    have hcid := mkFused_chunk_id w1 w2 sem kw id fr hmk
    refine ⟨id, hcid, ?_, ?_⟩
    · have := List.mem_dedup.mp hidmem
      exact List.mem_append.mp this
    · unfold mkFused at hmk
      cases hfs : (findByChunkId sem id).orElse (fun _ => findByChunkId kw id) with
      | none => rw [hfs] at hmk; exact absurd hmk (by simp)
      | some r =>
        rw [hfs] at hmk
        injection hmk with hmk
        rw [← hmk]
        exact ⟨rfl, rfl, rfl⟩
  · intro id hid
    obtain ⟨fr, hmk⟩ := mkFused_isSome w1 w2 sem kw id hid
    refine ⟨fr, ?_, mkFused_chunk_id w1 w2 sem kw id fr hmk⟩
    exact List.mem_filterMap.mpr ⟨id, List.mem_dedup.mpr (List.mem_append.mpr hid), hmk⟩
  · exact pairwise_filterMap_chunk_id _ (mkFused_chunk_id w1 w2 sem kw)
      (allChunkIds sem kw) (List.nodup_dedup _)
  · exact List.Pairwise.sublist (List.take_sublist _ _) (sortDesc_pairwise _)
  · unfold search_chunks_fuse
    rw [List.length_take, (sortDesc_perm _).length_eq]
  · simp +decide only [search_chunks_fuse, sortDesc, insertDesc, combineResults,
      allChunkIds, chunkIds, mkFused, findByChunkId, scoreDict, keyLt,
      List.dedup, List.filterMap, List.find?, List.foldl, Option.orElse,
      List.insert, List.elem]
    norm_num [insertDesc, keyLt, strLtB, List.take]

/-- Witness for `search_chunks_fusion`: the chunk id `c3`, present only in
the keyword list, still receives a fused record. -/
theorem search_chunks_fusion_witness :
    ∃ fr ∈ combineResults (7/10) (3/10)
        [⟨some ("c1"), 9/10, none⟩, ⟨some ("c2"), 4/10, none⟩]
        [⟨some ("c2"), 8/10, none⟩, ⟨some ("c3"), 6/10, none⟩],
      fr.base.chunk_id = some ("c3") :=
  (search_chunks_fusion (7/10) (3/10)
    [⟨some ("c1"), 9/10, none⟩, ⟨some ("c2"), 4/10, none⟩]
    [⟨some ("c2"), 8/10, none⟩, ⟨some ("c3"), 6/10, none⟩] 3).2.1 ("c3")
    (Or.inr (by decide))

/-! ## Supersession detector (`ScholarGraph/ingestion/supersession_detector.py`)

`_should_supersede` compares ISO-8601 ingestion timestamps (modelled
post-parse by their position on the timeline, an `Int`; a missing/empty
candidate date is `none`, which the source maps to `datetime.min`, smaller
than every parsed date — the claims assume well-formed timestamps, so the
`except` fallback replacing both dates by `now()`/`min` is not exercised),
then applies, in order: exact case-insensitive title match, difflib
`SequenceMatcher(None, …).ratio() >= 0.85`, and the session/date filename
pattern.  The store side effects of `detect_and_mark_supersession`
(`mark_document_superseded`, `create_supersedes_relationship`) are modelled
as explicit `marks`/`links` lists, and the candidate query result is an
input list (the Cypher query excludes the new document's own id). -/

/-! ### difflib `SequenceMatcher` (isjunk=None) on character lists -/

def b2jCount (b : List Char) (c : Char) : Nat :=
  (b.filter (fun d => d = c)).length

/-- Autojunk: for `len(b) >= 200`, elements occurring more than 1% + 1 times
are dropped from the index. -/
def bPopular (b : List Char) (c : Char) : Bool :=
  if b.length ≥ 200 then b2jCount b c > b.length / 100 + 1 else false

/-- Index `b2j[c]`: ascending positions of `c` in `b` (popular elements removed). -/
def b2j (b : List Char) (c : Char) : List Nat :=
  if bPopular b c then []
  else (List.range b.length).filter (fun j => b.get? j = some c)

/-- The `j2len` dictionary of the matching DP, as an association list. -/
def lookupNat : List (Nat × Nat) → Nat → Nat
  | [], _ => 0
  | (k, v) :: rest, j => if k = j then v else lookupNat rest j

structure FLMBest where
  besti : Nat
  bestj : Nat
  bestsize : Nat
deriving DecidableEq

/-- Inner loop of `find_longest_match`: for one `j` in `b2j[a[i]]`
(`continue` below `blo`, `break` at `bhi` — equivalent to filtering),
extend the run ending at `(i, j)` and update the running best. -/
def flmInnerStep (i blo bhi : Nat) (j2lenPrev : List (Nat × Nat))
    (acc : List (Nat × Nat) × FLMBest) (j : Nat) : List (Nat × Nat) × FLMBest :=
  if blo ≤ j ∧ j < bhi then
    let k := (if j = 0 then 0 else lookupNat j2lenPrev (j - 1)) + 1
    let best := acc.2
    let best2 := if k > best.bestsize then FLMBest.mk (i + 1 - k) (j + 1 - k) k
      else best
    ((j, k) :: acc.1, best2)
  else acc

/-- Outer loop of `find_longest_match` over `i in range(alo, ahi)`. -/
def flmLoop (a b : List Char) (blo bhi : Nat) :
    List Nat → List (Nat × Nat) → FLMBest → FLMBest
  | [], _, best => best
  | i :: is, j2len, best =>
    let r := (b2j b (a.getD i ' ')).foldl (flmInnerStep i blo bhi j2len) ([], best)
    flmLoop a b blo bhi is r.1 r.2

/-- Backward extension while preceding characters match (the b-junk set is
empty because the source constructs `SequenceMatcher(None, …)`, so the
junk-adjacent extension loops are no-ops and are omitted). -/
def extendBack (a b : List Char) (alo blo : Nat) :
    Nat → Nat → Nat → Nat → Nat × Nat × Nat
  | 0, besti, bestj, bestsize => (besti, bestj, bestsize)
  | fuel + 1, besti, bestj, bestsize =>
    if alo < besti ∧ blo < bestj ∧ a.get? (besti - 1) ≠ none ∧
        a.get? (besti - 1) = b.get? (bestj - 1) then
      extendBack a b alo blo fuel (besti - 1) (bestj - 1) (bestsize + 1)
    else (besti, bestj, bestsize)

/-- Forward extension while following characters match. -/
def extendFwd (a b : List Char) (ahi bhi : Nat) :
    Nat → Nat → Nat → Nat → Nat × Nat × Nat
  | 0, besti, bestj, bestsize => (besti, bestj, bestsize)
  | fuel + 1, besti, bestj, bestsize =>
    if besti + bestsize < ahi ∧ bestj + bestsize < bhi ∧
        a.get? (besti + bestsize) ≠ none ∧
        a.get? (besti + bestsize) = b.get? (bestj + bestsize) then
      extendFwd a b ahi bhi fuel besti bestj (bestsize + 1)
    else (besti, bestj, bestsize)

/-- Embedding of `SequenceMatcher.find_longest_match` on `a[alo:ahi]`, `b[blo:bhi]`. -/
def find_longest_match (a b : List Char) (alo ahi blo bhi : Nat) :
    Nat × Nat × Nat :=
  let best := flmLoop a b blo bhi (List.range' alo (ahi - alo)) []
    (FLMBest.mk alo blo 0)
  let e1 := extendBack a b alo blo best.besti best.besti best.bestj best.bestsize
  extendFwd a b ahi bhi ahi e1.1 e1.2.1 e1.2.2

/-- Total size of the matching blocks of `get_matching_blocks` (the queue
recursion, with fuel: every recursive call strictly shrinks the combined
range size, so `|a| + |b| + 1` suffices). -/
def matchingSum (a b : List Char) : Nat → Nat → Nat → Nat → Nat → Nat
  | 0, _, _, _, _ => 0
  | fuel + 1, alo, ahi, blo, bhi =>
    let m := find_longest_match a b alo ahi blo bhi
    if m.2.2 = 0 then 0
    else m.2.2 +
      (if alo < m.1 ∧ blo < m.2.1 then matchingSum a b fuel alo m.1 blo m.2.1
       else 0) +
      (if m.1 + m.2.2 < ahi ∧ m.2.1 + m.2.2 < bhi then
        matchingSum a b fuel (m.1 + m.2.2) ahi (m.2.1 + m.2.2) bhi
       else 0)

/-- Embedding of `SequenceMatcher(None, a, b).ratio()`, that is `2.0 * M / (len(a) + len(b))`
(`1.0` when both strings are empty). -/
def smRatioValue (sa sb : String) : ℚ :=
  if sa.data.length + sb.data.length ≠ 0 then
    2 * (matchingSum sa.data sb.data
        (sa.data.length + sb.data.length + 1) 0 sa.data.length 0 sb.data.length : ℚ) /
      ((sa.data.length : ℚ) + (sb.data.length : ℚ))
  else 1

/-- Python `f"{x:.2f}"` on the modelled rational score (round half to even
on the rational value). -/
def format2dp (q : ℚ) : String :=
  let fl : Int := Rat.floor (q * 100)
  let frac : ℚ := q * 100 - fl
  let n : Int :=
    if frac > 1/2 then fl + 1
    else if frac < 1/2 then fl
    else if fl % 2 = 0 then fl else fl + 1
  let m := n.natAbs
  (if n < 0 then "-" else "") ++ toString (m / 100) ++ "." ++
    (if m % 100 < 10 then "0" else "") ++ toString (m % 100)

/-! ### `Path(...).stem` and the session/date pattern -/

/-- POSIX `Path(p).name`: last path component (ignoring trailing slashes). -/
def pathName (p : String) : String :=
  String.mk
    (((p.data.reverse.dropWhile (fun c => c = '/')).takeWhile
      (fun c => ¬ c = '/')).reverse)

/-- Index of the last occurrence of `c` (Python `str.rfind`). -/
def lastIdxOf (c : Char) (l : List Char) : Option Nat :=
  match l.reverse.findIdx? (fun d => d = c) with
  | some r => some (l.length - 1 - r)
  | none => none

/-- Embedding of `Path(p).stem`: name up to the last dot, unless that dot is the first
or last character of the name. -/
def pathStem (p : String) : String :=
  match lastIdxOf '.' (pathName p).data with
  | some i =>
    if 0 < i ∧ i < (pathName p).data.length - 1 then
      String.mk ((pathName p).data.take i)
    else pathName p
  | none => pathName p

def isDigitCh (c : Char) : Bool := '0' ≤ c ∧ c ≤ '9'

def isSepCh (c : Char) : Bool := c = '-' ∨ c = '_'

/-- Greedy `\d{1,2}` at end of the date pattern. -/
def tryLastDigits : List Char → Option Nat
  | [] => none
  | [a] => if isDigitCh a then some 1 else none
  | a :: b :: _ =>
    if isDigitCh a then (if isDigitCh b then some 2 else some 1) else none

/-- Pattern `[-_]\d{1,2}` following a one-digit day/month group. -/
def afterFirstDigit : List Char → Option Nat
  | s :: rest =>
    if isSepCh s then (tryLastDigits rest).map (fun n => 1 + n) else none
  | [] => none

/-- Second digit + separator + final group, the greedy two-digit path of
`\d{1,2}[-_]\d{1,2}`. -/
def tryTwoThenSep : List Char → Option Nat
  | b :: s :: rest3 =>
    if isDigitCh b ∧ isSepCh s then (tryLastDigits rest3).map (fun n => 2 + n)
    else none
  | _ => none

/-- Pattern `\d{1,2}[-_]\d{1,2}` with the regex engine's greedy backtracking on the
first group. -/
def matchDayMonth : List Char → Option Nat
  | [] => none
  | a :: rest =>
    if isDigitCh a then
      match tryTwoThenSep rest with
      | some n => some (1 + n)
      | none => (afterFirstDigit rest).map (fun n => 1 + n)
    else none

/-- Pattern `\d{4}[-_]` followed by the day/month part. -/
def matchDatePart : List Char → Option Nat
  | d1 :: d2 :: d3 :: d4 :: s :: rest =>
    if isDigitCh d1 ∧ isDigitCh d2 ∧ isDigitCh d3 ∧ isDigitCh d4 ∧ isSepCh s then
      (matchDayMonth rest).map (fun n => 5 + n)
    else none
  | _ => none

/-- Match `session[_-]?(\d{4}[-_]\d{1,2}[-_]\d{1,2})` (IGNORECASE) at the
head of `l`, returning the match length. -/
def sessionMatchAt (l : List Char) : Option Nat :=
  if (l.take 7).map Char.toLower = "session".data then
    match l.drop 7 with
    | s :: rest2 =>
      if isSepCh s then
        match matchDatePart rest2 with
        | some n => some (8 + n)
        | none => (matchDatePart (l.drop 7)).map (fun n => 7 + n)
      else (matchDatePart (l.drop 7)).map (fun n => 7 + n)
    | [] => none
  else none

/-- Embedding of `re.search`: leftmost match, as a `(start, end)` span. -/
def sessionSearchGo : List Char → Nat → Option (Nat × Nat)
  | [], _ => none
  | c :: cs, pos =>
    match sessionMatchAt (c :: cs) with
    | some len => some (pos, pos + len)
    | none => sessionSearchGo cs (pos + 1)

def sessionSearch (s : String) : Option (Nat × Nat) :=
  sessionSearchGo s.data 0

/-- Embedding of `re.sub(pattern, "", s)`: remove all non-overlapping matches, scanning
left to right (each step consumes at least one character, so `|s|` fuel
suffices). -/
def sessionSubGo : Nat → List Char → List Char
  | 0, l => l
  | _ + 1, [] => []
  | fuel + 1, c :: cs =>
    match sessionMatchAt (c :: cs) with
    | some len => sessionSubGo fuel ((c :: cs).drop len)
    | none => c :: sessionSubGo fuel cs

def sessionSubAll (s : String) : String :=
  String.mk (sessionSubGo s.data.length s.data)

example : sessionSearch ("session-2024-03-01") = some (0, 18) := by decide
example : sessionSearch ("notes") = none := by decide
example : sessionSubAll ("team-session_2024-1-7-notes") = "team--notes" := by decide
example : pathStem ("docs/session-2024-03-01.md") = "session-2024-03-01" := by decide
example : pathStem ("archive.tar.gz") = "archive.tar" := by decide

/-! ### The decision rule and marking loop -/

structure Candidate where
  document_id : String
  title : String
  file_path : String
  ingestion_date : Option Int
deriving DecidableEq

def TITLE_SIMILARITY_THRESHOLD : ℚ := 85/100

/-- Rule 1 condition `new_date <= cand_dt`: a missing/empty candidate date
is `datetime.min`, strictly below every parsed date. -/
def dateNotAfter (newDate : Int) (candDate : Option Int) : Bool :=
  match candDate with
  | some d => newDate ≤ d
  | none => false

/-- Date-stripped, `strip("-_")`-trimmed, lowered base name of a session
file. -/
def sessionBaseName (stem : String) : String :=
  pyLower (String.mk (stripBoth isSepCh (sessionSubAll stem).data))

/-- Embedding of `SupersessionDetector._should_supersede`: ordered decision rules
(timestamp monotonicity, exact case-insensitive title match, title
similarity ≥ 0.85, session/date filename pattern). -/
def should_supersede (newTitle newFilePath : String) (newIngestionDate : Int)
    (candidate : Candidate) : Bool × String :=
  if dateNotAfter newIngestionDate candidate.ingestion_date then
    (false, "newer_document_required")
  else if pyStripStr (pyLower newTitle) = pyStripStr (pyLower candidate.title) then
    (true, "exact_title_match")
  else if smRatioValue (pyLower newTitle) (pyLower candidate.title) ≥
      TITLE_SIMILARITY_THRESHOLD then
    (true, "title_similarity_" ++
      format2dp (smRatioValue (pyLower newTitle) (pyLower candidate.title)))
  else
    match sessionSearch (pathStem newFilePath),
        sessionSearch (pathStem candidate.file_path) with
    | some _, some _ =>
      if sessionBaseName (pathStem newFilePath) =
          sessionBaseName (pathStem candidate.file_path) then
        (true, "session_document_pattern")
      else (false, "no_supersession")
    | _, _ => (false, "no_supersession")

structure SupersededEntry where
  document_id : String
  title : String
  reason : String
deriving DecidableEq

/-- A `mark_document_superseded(document_id=…, superseded_by=…)` call. -/
structure Mark where
  document_id : String
  superseded_by : String
deriving DecidableEq

/-- Result of one detection call: the returned dict plus the store side
effects (`marks` and, as `(newer, older, reason)` triples, `links`). -/
structure DetectResult where
  superseded : List SupersededEntry
  reasons : List String
  count : Nat
  marks : List Mark
  links : List (String × String × String)
deriving DecidableEq

/-- Body of the candidate loop of `detect_and_mark_supersession`. -/
def detectStep (newDocumentId newTitle newFilePath : String)
    (newIngestionDate : Int) (acc : DetectResult) (cand : Candidate) :
    DetectResult :=
  if (should_supersede newTitle newFilePath newIngestionDate cand).1 then
    { acc with
        superseded := acc.superseded ++
          [⟨cand.document_id, cand.title,
            (should_supersede newTitle newFilePath newIngestionDate cand).2⟩]
        reasons := acc.reasons ++
          [(should_supersede newTitle newFilePath newIngestionDate cand).2]
        marks := acc.marks ++ [⟨cand.document_id, newDocumentId⟩]
        links := acc.links ++
          [(newDocumentId, cand.document_id,
            (should_supersede newTitle newFilePath newIngestionDate cand).2)] }
  else acc

/-- Embedding of `SupersessionDetector.detect_and_mark_supersession` over an explicit
candidate list. -/
def detect_and_mark_supersession (newDocumentId newTitle newFilePath : String)
    (newIngestionDate : Int) (candidates : List Candidate) : DetectResult :=
  let r := candidates.foldl
    (detectStep newDocumentId newTitle newFilePath newIngestionDate)
    ⟨[], [], 0, [], []⟩
  { r with count := r.superseded.length }

/-! ## Claim C5: timestamp monotonicity of `_should_supersede` -/

/-- C5: whenever the candidate's (well-formed) ingestion timestamp is
greater than or equal to the new document's, `_should_supersede` refuses
with reason `newer_document_required`, regardless of titles and file
paths. -/
theorem should_supersede_timestamp_monotonic (newTitle newFilePath : String)
    (newIngestionDate : Int) (cand : Candidate) (tc : Int)
    (hd : cand.ingestion_date = some tc) (hge : newIngestionDate ≤ tc) :
    should_supersede newTitle newFilePath newIngestionDate cand =
      (false, "newer_document_required") := by
  unfold should_supersede
  have hcond : dateNotAfter newIngestionDate cand.ingestion_date = true := by
    rw [hd]
    unfold dateNotAfter
    simpa using hge
  rw [if_pos hcond]

/-- Witness for `should_supersede_timestamp_monotonic`: an equal-titled
candidate with the same timestamp is not superseded. -/
theorem should_supersede_timestamp_monotonic_witness :
    should_supersede ("T") "a/x.md" 5 ⟨"d1", "T", "a/y.md", some 5⟩ =
      (false, "newer_document_required") :=
  should_supersede_timestamp_monotonic ("T") "a/x.md" 5
    ⟨"d1", "T", "a/y.md", some 5⟩ 5 rfl le_rfl

/-! ## Claim C4: exact-title supersession marks the older document -/

theorem should_supersede_exact_title (newTitle newFilePath : String)
    (newIngestionDate : Int) (cand : Candidate) (tc : Int)
    (hd : cand.ingestion_date = some tc) (hlt : tc < newIngestionDate)
    (ht : pyStripStr (pyLower newTitle) = pyStripStr (pyLower cand.title)) :
    should_supersede newTitle newFilePath newIngestionDate cand =
      (true, "exact_title_match") := by
  unfold should_supersede
  have hcond : dateNotAfter newIngestionDate cand.ingestion_date = false := by
    rw [hd]
    unfold dateNotAfter
    simpa using hlt
  rw [hcond]
  simp only [Bool.false_eq_true, if_false]
  rw [if_pos ht]

theorem detect_foldl_mono (nid nt np : String) (nd : Int) :
    ∀ (cands : List Candidate) (acc : DetectResult),
      (∀ m ∈ acc.marks,
        m ∈ (cands.foldl (detectStep nid nt np nd) acc).marks) ∧
      (∀ e ∈ acc.superseded,
        e ∈ (cands.foldl (detectStep nid nt np nd) acc).superseded) ∧
      (∀ l ∈ acc.links,
        l ∈ (cands.foldl (detectStep nid nt np nd) acc).links) := by
  intro cands
  induction cands with
  | nil => intro acc; exact ⟨fun m hm => hm, fun e he => he, fun l hl => hl⟩
  | cons c cs ih =>
    intro acc
    refine ⟨fun m hm => ?_, fun e he => ?_, fun l hl => ?_⟩
    · refine (ih (detectStep nid nt np nd acc c)).1 m ?_
      unfold detectStep
      by_cases hss : (should_supersede nt np nd c).1 = true
      · rw [if_pos hss]
        exact List.mem_append_left _ hm
      · rw [if_neg hss]
        exact hm
    · refine (ih (detectStep nid nt np nd acc c)).2.1 e ?_
      unfold detectStep
      by_cases hss : (should_supersede nt np nd c).1 = true
      · rw [if_pos hss]
        exact List.mem_append_left _ he
      · rw [if_neg hss]
        exact he
    · refine (ih (detectStep nid nt np nd acc c)).2.2 l ?_
      unfold detectStep
      by_cases hss : (should_supersede nt np nd c).1 = true
      · rw [if_pos hss]
        exact List.mem_append_left _ hl
      · rw [if_neg hss]
        exact hl

theorem detect_foldl_adds (nid nt np : String) (nd : Int) (A : Candidate)
    (hss : (should_supersede nt np nd A).1 = true) :
    ∀ (cands : List Candidate), A ∈ cands → ∀ (acc : DetectResult),
      (Mark.mk A.document_id nid ∈
        (cands.foldl (detectStep nid nt np nd) acc).marks) ∧
      ((⟨A.document_id, A.title, (should_supersede nt np nd A).2⟩ :
          SupersededEntry) ∈
        (cands.foldl (detectStep nid nt np nd) acc).superseded) ∧
      ((nid, A.document_id, (should_supersede nt np nd A).2) ∈
        (cands.foldl (detectStep nid nt np nd) acc).links) := by
  intro cands
  induction cands with
  | nil => intro hA; simp at hA
  | cons c cs ih =>
    intro hA acc
    rcases List.mem_cons.mp hA with hA1 | hA1
    · subst hA1
      have hstep : detectStep nid nt np nd acc A =
          { acc with
              superseded := acc.superseded ++
                [⟨A.document_id, A.title, (should_supersede nt np nd A).2⟩]
              reasons := acc.reasons ++ [(should_supersede nt np nd A).2]
              marks := acc.marks ++ [⟨A.document_id, nid⟩]
              links := acc.links ++
                [(nid, A.document_id, (should_supersede nt np nd A).2)] } := by
        unfold detectStep
        rw [if_pos hss]
      have hmono := detect_foldl_mono nid nt np nd cs (detectStep nid nt np nd acc A)
      refine ⟨hmono.1 _ ?_, hmono.2.1 _ ?_, hmono.2.2 _ ?_⟩
      · rw [hstep]; simp
      · rw [hstep]; simp
      · rw [hstep]; simp
    · exact ih hA1 (detectStep nid nt np nd acc c)

theorem detect_foldl_marks_shape (nid nt np : String) (nd : Int) :
    ∀ (cands : List Candidate) (acc : DetectResult),
      ∀ m ∈ (cands.foldl (detectStep nid nt np nd) acc).marks,
        m ∈ acc.marks ∨
          (m.superseded_by = nid ∧ ∃ c ∈ cands, m.document_id = c.document_id) := by
  intro cands
  induction cands with
  | nil => intro acc m hm; exact Or.inl hm
  | cons c cs ih =>
    intro acc m hm
    rcases ih (detectStep nid nt np nd acc c) m hm with h1 | ⟨h1, d, hd, hdid⟩
    · unfold detectStep at h1
      by_cases hss : (should_supersede nt np nd c).1 = true
      · rw [if_pos hss] at h1
        simp only [] at h1
        rcases List.mem_append.mp h1 with h2 | h2
        · exact Or.inl h2
        · right
          have hm2 : m = Mark.mk c.document_id nid := by simpa using h2
          rw [hm2]
          exact ⟨rfl, c, by simp, rfl⟩
      · rw [if_neg hss] at h1
        exact Or.inl h1
    · exact Or.inr ⟨h1, d, by simp [hd], hdid⟩

/-- C4: if candidate `A` has the same title as the new document `B`, a
strictly older (well-formed) ingestion timestamp, and is among the query's
candidates (which never include `B` itself), then `detect(B)` marks `A` as
superseded by `B` with reason `exact_title_match` (store mark, supersedes
link and returned entry), and every mark ever produced points old → new,
so `B` is never marked superseded by `A`. -/
theorem detect_and_mark_marks_older (nid nt np : String) (nd : Int)
    (cands : List Candidate) (A : Candidate) (hA : A ∈ cands)
    (tA : Int) (hd : A.ingestion_date = some tA) (holder : tA < nd)
    (ht : A.title = nt)
    (hexcl : ∀ c ∈ cands, c.document_id ≠ nid) :
    (Mark.mk A.document_id nid ∈
      (detect_and_mark_supersession nid nt np nd cands).marks) ∧
    ((⟨A.document_id, A.title, "exact_title_match"⟩ : SupersededEntry) ∈
      (detect_and_mark_supersession nid nt np nd cands).superseded) ∧
    ((nid, A.document_id, "exact_title_match") ∈
      (detect_and_mark_supersession nid nt np nd cands).links) ∧
    (∀ m ∈ (detect_and_mark_supersession nid nt np nd cands).marks,
      m.superseded_by = nid ∧ m.document_id ≠ nid) := by
  have hssA : should_supersede nt np nd A = (true, "exact_title_match") :=
    should_supersede_exact_title nt np nd A tA hd holder (by rw [ht])
  have hss1 : (should_supersede nt np nd A).1 = true := by rw [hssA]
  have hadds := detect_foldl_adds nid nt np nd A hss1 cands hA ⟨[], [], 0, [], []⟩
  have hreason : (should_supersede nt np nd A).2 = "exact_title_match" := by
    rw [hssA]
  unfold detect_and_mark_supersession
  refine ⟨hadds.1, ?_, ?_, ?_⟩
  · have := hadds.2.1
    rw [hreason] at this
    exact this
  · have := hadds.2.2
    rw [hreason] at this
    exact this
  · intro m hm
    have := detect_foldl_marks_shape nid nt np nd cands ⟨[], [], 0, [], []⟩ m hm
    rcases this with h1 | ⟨h1, c, hc, hdid⟩
    · simp at h1
    · refine ⟨h1, ?_⟩
      rw [hdid]
      exact hexcl c hc

/-- Witness for `detect_and_mark_marks_older` at concrete documents. -/
theorem detect_and_mark_marks_older_witness :
    Mark.mk ("a") ("b") ∈
      (detect_and_mark_supersession ("b") "T" "p/x.md" 2
        [⟨"a", "T", "p/y.md", some 1⟩]).marks ∧
    (∀ m ∈ (detect_and_mark_supersession ("b") "T" "p/x.md" 2
        [⟨"a", "T", "p/y.md", some 1⟩]).marks,
      m.superseded_by = "b" ∧ m.document_id ≠ "b") := by
  have h := detect_and_mark_marks_older ("b") "T" "p/x.md" 2
    [⟨"a", "T", "p/y.md", some 1⟩] ⟨"a", "T", "p/y.md", some 1⟩ (by decide)
    1 rfl (by decide) rfl (by decide)
  exact ⟨h.1, h.2.2.2⟩
